import Mathlib

/-!
Verification of the task-orchestration and concurrency-safety core of the
visual-context-interface app, as a shallow embedding in Lean 4.

Embedded modules (Python source file on the left):

* proxy/agents/file_lock.py  — lock table, acquire / can_write / release
* proxy/snapshot.py          — snapshot store: init / capture / finalize /
                               prune / restore
* proxy/agent_tools.py       — sandboxed tool executor (path resolution,
                               write limits, capture-before-write)
* proxy/agents/worker.py     — worker agentic loop and per-tool dispatch
* proxy/agents/state.py      — multi-agent run state
* proxy/agents/orchestrator.py — plan parsing and the planning phase

Python dicts are embedded as association lists with replace-on-insert
semantics; file contents are Lean Strings (exact byte content of UTF-8
files); file-system paths are embedded both as their raw strings (lock
keys, files-changed tracking, exactly as the Python code keys them) and
as segment lists for resolution against the project root.  Exceptions
become Except / Option results.  Wall-clock timestamps and generated ids
are taken as explicit inputs.
-/

set_option maxHeartbeats 1000000

/-! ## File lock manager (proxy/agents/file_lock.py) -/

/-- The lock table `_locks : dict[str, str]` mapping file path to the
worker id holding the lock, embedded as an association list. -/
abbrev LockTable := List (String × String)

/-- `self._locks.get(path)`: first binding of `path`. -/
def lockLookup (locks : LockTable) (path : String) : Option String :=
  match locks with
  | [] => none
  | (p, h) :: rest => if p = path then some h else lockLookup rest path

/-- `self._locks[path] = workerId`: replace the binding of `path` if
present, otherwise append-style insert (dict assignment). -/
def lockInsert (locks : LockTable) (path workerId : String) : LockTable :=
  match locks with
  | [] => [(path, workerId)]
  | (p, h) :: rest =>
      if p = path then (path, workerId) :: rest
      else (p, h) :: lockInsert rest path workerId

/-- A lock table is well formed when no path is bound twice (the
invariant a Python dict enforces by construction). -/
def WFLocks (locks : LockTable) : Prop :=
  (locks.map Prod.fst).Nodup

/-- `FileLockManager.acquire`, validation pass: the conflict messages
collected for paths held by a different worker. -/
def acquireConflicts (locks : LockTable) (workerId : String)
    (filePaths : List String) : List String :=
  filePaths.filterMap (fun path =>
    match lockLookup locks path with
    | some holder =>
        if holder ≠ workerId then some (path ++ " (locked by " ++ holder ++ ")")
        else none
    | none => none)

/-- `FileLockManager.acquire`: collect conflicts first, raise `ValueError`
if any, otherwise apply all locks. -/
def acquire (locks : LockTable) (workerId : String) (filePaths : List String) :
    Except String LockTable :=
  if (acquireConflicts locks workerId filePaths).isEmpty then
    .ok (filePaths.foldl (fun acc path => lockInsert acc path workerId) locks)
  else
    .error ("Cannot acquire locks -- files already locked: " ++
      String.intercalate ", " (acquireConflicts locks workerId filePaths))

/-- The lock table after an `acquire` call returns or raises: on a raise
the table is untouched (the exception is thrown before any mutation). -/
def acquireRun (locks : LockTable) (workerId : String) (filePaths : List String) :
    LockTable × Option String :=
  match acquire locks workerId filePaths with
  | .ok locks' => (locks', none)
  | .error e => (locks, some e)

/-- `FileLockManager.can_write`: true iff unlocked or held by this worker. -/
def canWrite (locks : LockTable) (workerId : String) (filePath : String) : Bool :=
  match lockLookup locks filePath with
  | none => true
  | some holder => holder == workerId

/-- `FileLockManager.release`: drop every lock held by the worker. -/
def release (locks : LockTable) (workerId : String) : LockTable :=
  locks.filter (fun pr => pr.2 ≠ workerId)

/-- `FileLockManager.release_all`: unconditional global clear. -/
def releaseAll : LockTable := []

/-- One call to the lock manager's mutating interface. -/
inductive LockOp where
  | acq (workerId : String) (filePaths : List String)
  | rel (workerId : String)
  | relAll

/-- Apply one lock-manager call to the table (a failed acquire leaves
the table unchanged). -/
def applyLockOp (locks : LockTable) : LockOp → LockTable
  | .acq w ps => (acquireRun locks w ps).1
  | .rel w => release locks w
  | .relAll => releaseAll

/-- Apply a sequence of lock-manager calls starting from the given table. -/
def applyLockOps (locks : LockTable) (ops : List LockOp) : LockTable :=
  ops.foldl applyLockOp locks

/-! ### Lock table lemmas -/

theorem lockLookup_insert (locks : LockTable) (path workerId q : String) :
    lockLookup (lockInsert locks path workerId) q =
      if q = path then some workerId else lockLookup locks q := by
  induction locks with
  | nil =>
      by_cases h : q = path
      · simp [lockInsert, lockLookup, h]
      · have h' : ¬ path = q := fun hc => h hc.symm
        simp [lockInsert, lockLookup, h, h']
  | cons pr rest ih =>
      obtain ⟨p, h⟩ := pr
      by_cases hp : p = path
      · subst hp
        by_cases hq : q = p
        · subst hq
          simp [lockInsert, lockLookup]
        · have hq' : ¬ p = q := fun hc => hq hc.symm
          simp [lockInsert, lockLookup, hq, hq']
      · by_cases hq : p = q
        · subst hq
          simp [lockInsert, lockLookup, hp]
        · simp [lockInsert, lockLookup, hp, hq, ih]

theorem lockInsert_keys (locks : LockTable) (path workerId : String) :
    ((lockInsert locks path workerId).map Prod.fst) =
      if path ∈ locks.map Prod.fst then locks.map Prod.fst
      else locks.map Prod.fst ++ [path] := by
  induction locks with
  | nil => simp [lockInsert]
  | cons pr rest ih =>
      obtain ⟨p, h⟩ := pr
      by_cases hp : p = path
      · subst hp
        simp [lockInsert]
      · have hp' : ¬ path = p := fun hc => hp hc.symm
        simp only [lockInsert, if_neg hp, List.map_cons, ih, List.mem_cons, hp',
          false_or]
        by_cases hm : path ∈ rest.map Prod.fst <;> simp [hm]

theorem lockInsert_wf (locks : LockTable) (path workerId : String)
    (hwf : WFLocks locks) : WFLocks (lockInsert locks path workerId) := by
  unfold WFLocks at *
  rw [lockInsert_keys]
  by_cases hm : path ∈ locks.map Prod.fst
  · simpa [hm] using hwf
  · simp only [hm, if_false]
    rw [List.nodup_append]
    refine ⟨hwf, List.nodup_singleton _, ?_⟩
    intro a ha hb
    rw [List.mem_singleton] at hb
    subst hb
    exact hm ha

theorem lockInsert_self (locks : LockTable) (path workerId : String)
    (h : lockLookup locks path = some workerId) :
    lockInsert locks path workerId = locks := by
  induction locks with
  | nil => simp [lockLookup] at h
  | cons pr rest ih =>
      obtain ⟨p, hd⟩ := pr
      by_cases hp : p = path
      · subst hp
        simp only [lockLookup, if_true, eq_self_iff_true, Option.some.injEq] at h
        simp [lockInsert, h]
      · simp only [lockLookup, if_neg hp] at h
        simp [lockInsert, hp, ih h]

/-- Lookup after applying the whole batch of inserts. -/
theorem lockLookup_foldl_insert (filePaths : List String) (locks : LockTable)
    (workerId q : String) :
    lockLookup (filePaths.foldl (fun acc path => lockInsert acc path workerId) locks) q =
      if q ∈ filePaths then some workerId else lockLookup locks q := by
  induction filePaths generalizing locks with
  | nil => simp
  | cons p rest ih =>
      simp only [List.foldl_cons, ih, lockLookup_insert, List.mem_cons]
      by_cases hq : q ∈ rest
      · simp [hq]
      · by_cases hqp : q = p <;> simp [hq, hqp]

theorem foldl_insert_wf (filePaths : List String) (locks : LockTable)
    (workerId : String) (hwf : WFLocks locks) :
    WFLocks (filePaths.foldl (fun acc path => lockInsert acc path workerId) locks) := by
  induction filePaths generalizing locks with
  | nil => exact hwf
  | cons p rest ih => exact ih _ (lockInsert_wf _ _ _ hwf)

theorem foldl_insert_self (filePaths : List String) (locks : LockTable)
    (workerId : String)
    (h : ∀ p ∈ filePaths, lockLookup locks p = some workerId) :
    filePaths.foldl (fun acc path => lockInsert acc path workerId) locks = locks := by
  induction filePaths with
  | nil => rfl
  | cons p rest ih =>
      simp only [List.foldl_cons]
      rw [lockInsert_self locks p workerId (h p (List.mem_cons_self p rest))]
      exact ih (fun q hq => h q (List.mem_cons_of_mem p hq))

theorem release_wf (locks : LockTable) (workerId : String)
    (hwf : WFLocks locks) : WFLocks (release locks workerId) := by
  exact hwf.sublist ((List.filter_sublist locks).map Prod.fst)

/-- The validation pass finds no conflict iff every requested path is
unheld or held by the requesting worker. -/
theorem acquireConflicts_eq_nil_iff (locks : LockTable) (workerId : String)
    (filePaths : List String) :
    acquireConflicts locks workerId filePaths = [] ↔
      ∀ p ∈ filePaths, ∀ h, lockLookup locks p = some h → h = workerId := by
  unfold acquireConflicts
  rw [List.filterMap_eq_nil_iff]
  constructor
  · intro hall p hp h hl
    have hcase := hall p hp
    rw [hl] at hcase
    by_contra hne
    simp [hne] at hcase
  · intro hall p hp
    cases hl : lockLookup locks p with
    | none => simp
    | some h => simp [hall p hp h hl]

theorem acquireRun_wf (locks : LockTable) (workerId : String)
    (filePaths : List String) (hwf : WFLocks locks) :
    WFLocks (acquireRun locks workerId filePaths).1 := by
  unfold acquireRun acquire
  by_cases hc : (acquireConflicts locks workerId filePaths).isEmpty
  · simp only [hc, if_true]
    exact foldl_insert_wf _ _ _ hwf
  · simp only [hc, if_false]
    exact hwf

theorem applyLockOps_wf (ops : List LockOp) (locks : LockTable)
    (hwf : WFLocks locks) : WFLocks (applyLockOps locks ops) := by
  induction ops generalizing locks with
  | nil => exact hwf
  | cons op rest ih =>
      cases op with
      | acq w ps => exact ih _ (acquireRun_wf _ _ _ hwf)
      | rel w => exact ih _ (release_wf _ _ hwf)
      | relAll =>
          refine ih _ ?_
          simp [WFLocks, applyLockOp, releaseAll]

/-- C1: `acquire(owner, paths)` is all-or-nothing.  If some path is held
by a different owner the call raises and the table is untouched; if no
path is held by a different owner the call succeeds, every requested
path becomes held by the owner and all other paths keep their holder;
re-acquiring paths already held by the same owner is a no-op on the
table; each path is held by at most one owner (the key set stays
duplicate-free after this call and after any sequence of
acquire/release/release_all calls starting from the empty table). -/
theorem acquire_atomic (locks : LockTable) (hwf : WFLocks locks)
    (workerId : String) (filePaths : List String) :
    ((∃ p ∈ filePaths, ∃ h, lockLookup locks p = some h ∧ h ≠ workerId) →
        (acquireRun locks workerId filePaths).1 = locks ∧
        ∃ e, (acquireRun locks workerId filePaths).2 = some e) ∧
    ((∀ p ∈ filePaths, ∀ h, lockLookup locks p = some h → h = workerId) →
        (acquireRun locks workerId filePaths).2 = none ∧
        ∀ q, lockLookup (acquireRun locks workerId filePaths).1 q =
          if q ∈ filePaths then some workerId else lockLookup locks q) ∧
    ((∀ p ∈ filePaths, lockLookup locks p = some workerId) →
        acquireRun locks workerId filePaths = (locks, none)) ∧
    WFLocks (acquireRun locks workerId filePaths).1 ∧
    (∀ ops : List LockOp, WFLocks (applyLockOps releaseAll ops)) := by
  refine ⟨?_, ?_, ?_, acquireRun_wf _ _ _ hwf, ?_⟩
  · intro ⟨p, hp, h, hl, hne⟩
    have hc : ¬ acquireConflicts locks workerId filePaths = [] := by
      intro hnil
      exact hne ((acquireConflicts_eq_nil_iff locks workerId filePaths).mp hnil p hp h hl)
    have hc' : ¬ (acquireConflicts locks workerId filePaths).isEmpty := by
      simpa [List.isEmpty_iff] using hc
    unfold acquireRun acquire
    simp [hc']
  · intro hall
    have hc : acquireConflicts locks workerId filePaths = [] :=
      (acquireConflicts_eq_nil_iff locks workerId filePaths).mpr hall
    have hc' : (acquireConflicts locks workerId filePaths).isEmpty := by
      simp [List.isEmpty_iff, hc]
    unfold acquireRun acquire
    simp only [hc', if_true]
    exact ⟨by simp, fun q => lockLookup_foldl_insert filePaths locks workerId q⟩
  · intro hall
    have hc : acquireConflicts locks workerId filePaths = [] := by
      refine (acquireConflicts_eq_nil_iff locks workerId filePaths).mpr ?_
      intro p hp h hl
      have h2 := hall p hp
      rw [h2] at hl
      injection hl with hl
      exact hl.symm
    have hc' : (acquireConflicts locks workerId filePaths).isEmpty := by
      simp [List.isEmpty_iff, hc]
    unfold acquireRun acquire
    simp only [hc', if_true]
    rw [foldl_insert_self filePaths locks workerId hall]
  · intro ops
    exact applyLockOps_wf ops releaseAll (by simp [WFLocks, releaseAll])

/-- Witness for C1 at a concrete table: `a.css` held by `w1`, a batch
request by `w2` for `a.css`/`b.css` fails and leaves the table alone. -/
theorem acquire_atomic_witness :
    WFLocks [("a.css", "w1")] ∧
    ((∃ p ∈ ["a.css", "b.css"], ∃ h,
        lockLookup [("a.css", "w1")] p = some h ∧ h ≠ "w2") →
      (acquireRun [("a.css", "w1")] "w2" ["a.css", "b.css"]).1 = [("a.css", "w1")] ∧
      ∃ e, (acquireRun [("a.css", "w1")] "w2" ["a.css", "b.css"]).2 = some e) := by
  have hwf : WFLocks [("a.css", "w1")] := by simp [WFLocks]
  exact ⟨hwf, (acquire_atomic [("a.css", "w1")] hwf "w2" ["a.css", "b.css"]).1⟩

/-! ## Paths and the project file tree

`proxy/agent_tools.py` and `proxy/snapshot.py` resolve every
user-supplied relative path against one project root and reject paths
that escape it.  Paths are embedded as their raw strings plus a
resolution into canonical segment lists; the file system under the
project root is an association list from canonical paths to file
contents.  Symbolic links are not part of the model (the symlink walk in
`_resolve_safe_path` is a defence against links that the model's file
tree cannot contain). -/

/-- Segments of a relative path string, split at `/`. -/
def splitSegsAux : List Char → List String
  | [] => [""]
  | c :: rest =>
      let r := splitSegsAux rest
      if c = '/' then "" :: r
      else
        match r with
        | [] => [String.mk [c]]
        | s :: ss => String.mk (c :: s.data) :: ss

/-- Split a path string at `/` (same segments as Python's `split("/")`,
by structural recursion on the characters). -/
def pathSegments (p : String) : List String := splitSegsAux p.data

/-- Lower-casing by characters (Python `str.lower` on ASCII names). -/
def strToLower (s : String) : String := String.mk (s.data.map Char.toLower)

/-- Walk the segments keeping the canonical stack; `..` pops, and
popping past the base escapes. -/
def resolveUnderAux (segs : List String) : Option (List String) :=
  segs.foldl (fun acc s =>
    match acc with
    | none => none
    | some canon =>
        if s = "" ∨ s = "." then some canon
        else if s = ".." then
          match canon with
          | [] => none
          | _ => some canon.dropLast
        else some (canon ++ [s])) (some [])

/-- Resolution of a relative path against the project root:
`(base / p).resolve()` stays inside the base iff the path is relative
and its `..` segments never climb above the base.  A leading empty
segment (an absolute path, which replaces the base under `pathlib`'s
`/` operator, or a degenerate empty path) is rejected: the abstract
project root cannot be named by an absolute path.  Returns the
canonical segment list relative to the base. -/
def resolveUnder (segs : List String) : Option (List String) :=
  match segs with
  | "" :: _ => none
  | _ => resolveUnderAux segs

/-- `_is_safe_relative_path` (snapshot.py) and the containment check of
`_resolve_safe_path` (agent_tools.py). -/
def isSafeRelativePath (p : String) : Bool :=
  (resolveUnder (pathSegments p)).isSome

/-- Generic lookup in an association list (first binding wins). -/
def alistGet {κ ν : Type} [DecidableEq κ] (l : List (κ × ν)) (k : κ) : Option ν :=
  match l with
  | [] => none
  | (k', v) :: rest => if k' = k then some v else alistGet rest k

/-- Generic replace-or-append insert into an association list. -/
def alistSet {κ ν : Type} [DecidableEq κ] (l : List (κ × ν)) (k : κ) (v : ν) :
    List (κ × ν) :=
  match l with
  | [] => [(k, v)]
  | (k', v') :: rest =>
      if k' = k then (k, v) :: rest else (k', v') :: alistSet rest k v

/-- The live project tree: canonical path segments to file content
(exact bytes of the UTF-8 file as a Lean `String`). -/
abbrev FileTree := List (List String × String)

/-- `Path.is_file()` plus `read`: the content at a canonical path. -/
def treeGet (tree : FileTree) (canon : List String) : Option String :=
  alistGet tree canon

/-- `write_text`: create or overwrite the file at a canonical path. -/
def treeSet (tree : FileTree) (canon : List String) (content : String) : FileTree :=
  alistSet tree canon content

/-! ## Snapshot store (proxy/snapshot.py) -/

/-- Number of snapshot runs kept with full content. -/
def MAX_FULL_SNAPSHOTS : Nat := 10

/-- Statuses `finalize_snapshot` accepts. -/
def VALID_FINAL_STATUSES : List String := ["success", "error"]

/-- One `manifest.json`: status, the run's changed-files list (raw
relative path strings) and the context summary added at finalize time.
`run_id` and timestamp live on the enclosing run. -/
structure Manifest where
  status : String
  files : List String
  contextSummary : Option String
deriving DecidableEq

/-- One run directory under `.vci/snapshots/`: the directory name
(run id), its manifest if `manifest.json` exists, and the captured file
copies keyed by canonical path. -/
structure SnapRun where
  runId : String
  manifest : Option Manifest
  captured : List (List String × String)
deriving DecidableEq

/-- The `.vci/snapshots/` directory, newest run first (runs are created
by `init_snapshot`, which prepends). -/
abbrev SnapStore := List SnapRun

/-- `init_snapshot`: create the run directory with an `in_progress`
manifest.  The generated run id is an explicit input. -/
def initSnapshot (store : SnapStore) (runId : String) : SnapStore :=
  ⟨runId, some ⟨"in_progress", [], none⟩, []⟩ :: store

/-- Directory lookup by run id. -/
def findRun (store : SnapStore) (runId : String) : Option SnapRun :=
  match store with
  | [] => none
  | r :: rest => if r.runId = runId then some r else findRun rest runId

/-- Rewrite the run directory with the given id in place. -/
def updateRun (store : SnapStore) (runId : String) (f : SnapRun → SnapRun) :
    SnapStore :=
  store.map (fun r => if r.runId = runId then f r else r)

/-- `capture_file`: skip silently on unsafe paths and missing files,
otherwise copy the current on-disk content over the stored copy
(`shutil.copy2` overwrites).  Returns whether a copy was made.  A
capture for an unknown run id creates the run directory without a
manifest (`dest.parent.mkdir(parents=True)`). -/
def captureFile (tree : FileTree) (store : SnapStore) (runId : String)
    (relativePath : String) : SnapStore × Bool :=
  match resolveUnder (pathSegments relativePath) with
  | none => (store, false)
  | some canon =>
      match treeGet tree canon with
      | none => (store, false)
      | some content =>
          if (findRun store runId).isSome then
            (updateRun store runId
              (fun r => { r with captured := alistSet r.captured canon content }),
              true)
          else
            (⟨runId, none, [(canon, content)]⟩ :: store, true)

/-- Lexicographic code-point comparison of character lists (Python's
`<` on strings). -/
def charsLt : List Char → List Char → Bool
  | [], [] => false
  | [], _ :: _ => true
  | _ :: _, [] => false
  | a :: as, b :: bs =>
      if a.toNat < b.toNat then true
      else if b.toNat < a.toNat then false
      else charsLt as bs

/-- Python's `<` on strings. -/
def strLt (a b : String) : Bool := charsLt a.data b.data

/-- One old run being pruned: delete every captured copy, keep the
manifest with status rewritten to `pruned`; already-pruned runs are
skipped. -/
def pruneOne (r : SnapRun) : SnapRun :=
  match r.manifest with
  | none => r
  | some m =>
      if m.status = "pruned" then r
      else { r with captured := [], manifest := some { m with status := "pruned" } }

/-- Insertion step for sorting run ids descending (string comparison,
mirroring `sorted(..., key=lambda d: d.name, reverse=True)`). -/
def insertRunDesc (x : SnapRun) : List SnapRun → List SnapRun
  | [] => [x]
  | y :: ys =>
      if strLt x.runId y.runId then y :: insertRunDesc x ys else x :: y :: ys

/-- Insertion sort of run directories, newest id first. -/
def sortRunsDesc : List SnapRun → List SnapRun
  | [] => []
  | x :: xs => insertRunDesc x (sortRunsDesc xs)

/-- `_prune_snapshots`: among directories that have a `manifest.json`,
keep the `MAX_FULL_SNAPSHOTS` newest (by directory name) untouched and
prune every older one in place. -/
def pruneSnapshots (store : SnapStore) : SnapStore :=
  let withManifest : List SnapRun := store.filter (fun r => r.manifest.isSome)
  let oldIds : List String :=
    ((sortRunsDesc withManifest).drop MAX_FULL_SNAPSHOTS).map (fun r => r.runId)
  store.map (fun r => if r.runId ∈ oldIds then pruneOne r else r)

/-- `finalize_snapshot`: sanitize the status, rewrite the manifest with
the final status / files / summary (a missing directory or manifest is a
logged no-op), then prune.  The `latest.json` pointer records the run id
and is not otherwise read by the embedded operations. -/
def finalizeSnapshot (store : SnapStore) (runId : String)
    (filesChanged : List String) (contextSummary : String) (status : String) :
    SnapStore :=
  let status' := if status ∈ VALID_FINAL_STATUSES then status else "error"
  match findRun store runId with
  | none => store
  | some r =>
      match r.manifest with
      | none => store
      | some _ =>
          pruneSnapshots (updateRun store runId (fun r =>
            { r with manifest := some ⟨status', filesChanged, some contextSummary⟩ }))

/-- `restore_snapshot`: `None` for an unknown or pruned run; otherwise
copy each captured manifest file whose path is safe back over the live
tree, silently skipping unsafe or uncaptured entries, and return the
restored path list together with the updated tree. -/
def restoreSnapshot (store : SnapStore) (tree : FileTree) (runId : String) :
    Option (List String × FileTree) :=
  match findRun store runId with
  | none => none
  | some r =>
      match r.manifest with
      | none => none
      | some m =>
          if m.status = "pruned" then none
          else some (m.files.foldl (fun acc rel =>
            match resolveUnder (pathSegments rel) with
            | none => acc
            | some canon =>
                match alistGet r.captured canon with
                | none => acc
                | some content =>
                    (acc.1 ++ [rel], treeSet acc.2 canon content)) ([], tree))

/-! ## Sandboxed tool executor (proxy/agent_tools.py)

`agents/tools.py`, the executor module the worker imports, is not in the
tree; only its callers (`proxy/agents/worker.py`) and tests are.
Modelled from the spec: the SandboxedToolExecutor of section 4.4 — path
containment against one project root, read/write byte ceilings, a
write-count ceiling, a filename denylist, and capture of pre-write
content into the SnapshotStore exactly when the executor was given an
active snapshot run id and the target file exists.  This coincides with
`proxy/agent_tools.py`, which is in the tree and is embedded below
(`execute_read_file`, `execute_write_file`, `execute_tool` including its
optional `run_id` parameter defaulting to `None`). -/

/-- Read byte ceiling (1 MB). -/
def MAX_READ_SIZE : Nat := 1 * 1024 * 1024

/-- Write byte ceiling (500 KB). -/
def MAX_WRITE_SIZE : Nat := 500 * 1024

/-- Per-run write-count ceiling. -/
def MAX_WRITES_PER_RUN : Nat := 20

/-- Security blocklist of exact (lower-cased) filenames. -/
def BLOCKED_FILENAMES : List String :=
  [".env", ".env.local", ".env.production", ".env.development",
   ".bashrc", ".zshrc", ".profile", ".bash_profile",
   ".npmrc", ".yarnrc", ".gitconfig"]

/-- Blocked shell/executable extensions. -/
def BLOCKED_EXTENSIONS : List String :=
  [".sh", ".bash", ".zsh", ".exe", ".bat", ".cmd"]

/-- `pathlib.Path(p).name`: the final path component (empty and `.`
segments are normalized away by pathlib). -/
def pathName (p : String) : String :=
  ((pathSegments p).filter (fun s => ¬ (s = "" ∨ s = "."))).getLastD ""

/-- Index of the last `.` in a character list, if any. -/
def lastDotIndex : List Char → Option Nat
  | [] => none
  | c :: rest =>
      match lastDotIndex rest with
      | some i => some (i + 1)
      | none => if c = '.' then some 0 else none

/-- `pathlib.Path(p).suffix` of a final component: the part from the
last dot, unless that dot is the first or last character. -/
def pathSuffix (name : String) : String :=
  match lastDotIndex name.data with
  | none => ""
  | some i =>
      if 0 < i ∧ i + 1 < name.data.length then String.mk (name.data.drop i)
      else ""

/-- Python's `str.startswith`. -/
def pyStartsWith (s pre : String) : Bool :=
  pre.data.isPrefixOf s.data

/-- `execute_read_file`: containment check, existence, size ceiling,
then the content. -/
def executeReadFile (tree : FileTree) (path : String) : String :=
  match resolveUnder (pathSegments path) with
  | none => "Error: " ++ "Path outside project directory"
  | some canon =>
      match treeGet tree canon with
      | none => "Error: " ++ ("File not found: " ++ path)
      | some content =>
          if content.utf8ByteSize > MAX_READ_SIZE then
            "Error: " ++ "File too large"
          else content

/-- `execute_write_file`: write-count ceiling, filename denylist,
containment check, content-size ceiling; then capture the pre-write
content when a snapshot run id was given and the target exists; then
write.  Returns the result text and the updated tree and snapshot
store. -/
def executeWriteFile (tree : FileTree) (store : SnapStore)
    (path content : String) (writeCount : Nat) (runId : Option String) :
    String × FileTree × SnapStore :=
  if MAX_WRITES_PER_RUN ≤ writeCount then
    ("Error: " ++ ("Maximum write limit reached (" ++
      toString MAX_WRITES_PER_RUN ++ " files per run)"), tree, store)
  else if strToLower (pathName path) ∈ BLOCKED_FILENAMES then
    ("Error: " ++ ("Writing to " ++ strToLower (pathName path) ++ " is not allowed"),
      tree, store)
  else if strToLower (pathSuffix (pathName path)) ∈ BLOCKED_EXTENSIONS then
    ("Error: " ++ ("Writing files with " ++ pathSuffix (pathName path) ++
      " extension is not allowed"), tree, store)
  else
    match resolveUnder (pathSegments path) with
    | none => ("Error: " ++ "Path outside project directory", tree, store)
    | some canon =>
        if MAX_WRITE_SIZE < content.utf8ByteSize then
          ("Error: " ++ ("Content too large (" ++
            toString content.utf8ByteSize ++ " bytes, max " ++
            toString MAX_WRITE_SIZE ++ ")"), tree, store)
        else
          let store' :=
            match runId with
            | some rid =>
                if (treeGet tree canon).isSome then
                  (captureFile tree store rid path).1
                else store
            | none => store
          ("Successfully wrote " ++ (toString content.utf8ByteSize ++
            (" bytes to " ++ path)), treeSet tree canon content, store')

/-- One tool invocation as the executor dispatches it.  `read_file` and
`write_file` are embedded in full.  `list_directory`, `search_files` and
`run_tests` neither write the tree nor touch the snapshot store, the
write counter or files-changed tracking; they are embedded as a single
constructor whose result text is an oracle input. -/
inductive ToolCall where
  | readFile (path : String)
  | writeFile (path : String) (content : String)
  | readOnlyTool (resultText : String)
deriving DecidableEq

/-- `execute_tool`: dispatch one call, bumping the write counter on a
non-error write. -/
def executeTool (tree : FileTree) (store : SnapStore) (tc : ToolCall)
    (writeCount : Nat) (runId : Option String) :
    String × Nat × FileTree × SnapStore :=
  match tc with
  | .readFile p => (executeReadFile tree p, writeCount, tree, store)
  | .writeFile p c =>
      let r := executeWriteFile tree store p c writeCount runId
      (r.1, if pyStartsWith r.1 "Error" then writeCount else writeCount + 1,
        r.2.1, r.2.2)
  | .readOnlyTool res => (res, writeCount, tree, store)

/-! ## Worker agent (proxy/agents/worker.py)

The completion service is an oracle: turn `k` of a run is answered with
`script k`.  A response carries its stop reason, the first text block if
any, and the tool calls requested.  The worker's `on_progress` callback
feeds RunState progress entries and does not influence the run result;
it is not part of the model. -/

/-- One response from the completion service. -/
structure ModelTurn where
  stopReason : String
  textBlock : Option String
  toolCalls : List ToolCall

/-- The result dict of `WorkerAgent.run`. -/
structure WorkerResult where
  status : String
  filesChanged : List String
  message : String
deriving DecidableEq

/-- Worker-side mutable state threaded through the loop. -/
structure WorkerSt where
  writeCount : Nat
  filesChanged : List String
  tree : FileTree
  snaps : SnapStore
deriving DecidableEq

/-- Ascending insertion step for `sorted(files_changed)`. -/
def insertAsc (x : String) : List String → List String
  | [] => [x]
  | y :: ys => if strLt y x then y :: insertAsc x ys else x :: y :: ys

/-- `sorted` on path strings. -/
def sortStrings : List String → List String
  | [] => []
  | x :: xs => insertAsc x (sortStrings xs)

/-- Add to the `files_changed` set. -/
def addFile (files : List String) (p : String) : List String :=
  if p ∈ files then files else p :: files

/-- `_execute_single_tool`: `run_tests` and the other read-only tools
return their text unchanged; a `write_file` is first gated by
`can_write` and then dispatched to `execute_tool` with no snapshot run
id (the worker never passes one). -/
def workerExecuteSingleTool (locks : LockTable) (workerId : String)
    (st : WorkerSt) (tc : ToolCall) : String × WorkerSt :=
  match tc with
  | .readOnlyTool res => (res, st)
  | .readFile p => (executeReadFile st.tree p, st)
  | .writeFile p c =>
      if ¬ canWrite locks workerId p then
        ("Error: " ++ ("File '" ++ p ++
          "' is locked by another agent. You cannot write to it."), st)
      else
        let r := executeTool st.tree st.snaps (.writeFile p c) st.writeCount none
        (r.1, ⟨r.2.1, st.filesChanged, r.2.2.1, r.2.2.2⟩)

/-- The per-turn tool pass of `WorkerAgent.run`: execute every tool call
in order, tracking successfully written files. -/
def workerProcessTools (locks : LockTable) (workerId : String)
    (st : WorkerSt) (tcs : List ToolCall) : WorkerSt :=
  tcs.foldl (fun st tc =>
    let r := workerExecuteSingleTool locks workerId st tc
    match tc with
    | .writeFile p _ =>
        if pyStartsWith r.1 "Error" then r.2
        else { r.2 with filesChanged := addFile r.2.filesChanged p }
    | _ => r.2) st

/-- The synthesized result when the turn ceiling is exhausted (also
reached via `break` when a non-final response carries no tool call). -/
def ceilingResult (maxTurns : Nat) (st : WorkerSt) : WorkerResult :=
  ⟨"success", sortStrings st.filesChanged,
    "Completed in " ++ (toString maxTurns ++
      (" turns, modified " ++ (toString st.filesChanged.length ++ " file(s)")))⟩

/-- The result when the model ends its turn: the first text block, or a
synthesized completion message when there is none or it is empty. -/
def endTurnResult (turn : Nat) (textBlock : Option String) (st : WorkerSt) :
    WorkerResult :=
  ⟨"success", sortStrings st.filesChanged,
    match textBlock with
    | some t => if t = "" then "Completed in " ++ (toString (turn + 1) ++ " turns") else t
    | none => "Completed in " ++ (toString (turn + 1) ++ " turns")⟩

/-- The turn loop of `WorkerAgent.run`, from turn index `turn` with
`fuel` turns left (`fuel = maxTurns - turn`). -/
def workerLoop (locks : LockTable) (workerId : String)
    (script : Nat → ModelTurn) (maxTurns : Nat) :
    Nat → Nat → WorkerSt → WorkerResult × WorkerSt
  | 0, _, st => (ceilingResult maxTurns st, st)
  | fuel + 1, turn, st =>
      let r := script turn
      if r.stopReason = "end_turn" then
        (endTurnResult turn r.textBlock st, st)
      else
        let st' := workerProcessTools locks workerId st r.toolCalls
        if r.toolCalls.isEmpty then (ceilingResult maxTurns st', st')
        else workerLoop locks workerId script maxTurns fuel (turn + 1) st'

/-- `WorkerAgent.run` on a configured worker with credentials present:
run the agentic loop from a fresh state over the given project tree and
snapshot store. -/
def workerRun (locks : LockTable) (workerId : String)
    (script : Nat → ModelTurn) (maxTurns : Nat) (tree : FileTree)
    (snaps : SnapStore) : WorkerResult × WorkerSt :=
  workerLoop locks workerId script maxTurns maxTurns 0 ⟨0, [], tree, snaps⟩

/-! ## Multi-agent run state (proxy/agents/state.py)

Every mutator of `MultiAgentState` swaps in a new dict built by
spreading the previous one; `snapshot()` hands out deep copies, so all
reads are embedded as plain field access of the current value.
Generated run ids and ISO timestamps are explicit inputs.  Progress
entries are carried as their human-readable summary strings. -/

/-- One worker record inside the state. -/
structure WorkerRec where
  status : String
  agentConfig : String
  agentName : String
  task : String
  turns : Nat
  progress : List String
  filesChanged : List String
  clarification : Option String
  message : Option String
  error : Option String
deriving DecidableEq

/-- The orchestrator entry of the state (the stored plan is carried
opaquely as its JSON text, the model never reads it back). -/
structure OrchRec where
  status : String
  plan : String
deriving DecidableEq

/-- The state dict of `MultiAgentState`. -/
structure AgentState where
  runId : Option String
  status : String
  orchestrator : Option OrchRec
  workers : List (String × WorkerRec)
  reviewer : Option (String × Option String)
  message : Option String
  error : Option String
  timestamp : Option String
deriving DecidableEq

/-- `_initial_state()`. -/
def initialState : AgentState :=
  ⟨none, "idle", none, [], none, none, none, none⟩

/-- `all_workers_done()`: every registered worker is `success` or
`error` (vacuously true with no workers). -/
def allWorkersDone (s : AgentState) : Bool :=
  s.workers.all (fun w => w.2.status = "success" ∨ w.2.status = "error")

/-- `start_run()`: spread the previous state, setting only `run_id`,
`status = "planning"` and the timestamp. -/
def startRun (s : AgentState) (runId now : String) : AgentState :=
  { s with runId := some runId, status := "planning", timestamp := some now }

/-- `complete_run(message)`. -/
def completeRun (s : AgentState) (message now : String) : AgentState :=
  { s with status := "success", message := some message, timestamp := some now }

/-- `fail_run(error)`. -/
def failRun (s : AgentState) (error now : String) : AgentState :=
  { s with status := "error", error := some error, timestamp := some now }

/-- `reset()`. -/
def resetState : AgentState := initialState

/-- `register_worker(...)`: add a fresh record with `running` status. -/
def registerWorker (s : AgentState) (workerId agentConfig agentName task now : String) :
    AgentState :=
  { s with
    workers := alistSet s.workers workerId
      ⟨"running", agentConfig, agentName, task, 0, [], [], none, none, none⟩,
    timestamp := some now }

/-- `complete_worker(...)` (assumes the worker is registered, as the
Python code indexes `workers[worker_id]`). -/
def completeWorker (s : AgentState) (workerId : String)
    (filesChanged : List String) (message now : String) : AgentState :=
  match alistGet s.workers workerId with
  | none => s
  | some w =>
      { s with
        workers := alistSet s.workers workerId
          { w with status := "success", filesChanged := filesChanged,
                   message := some message },
        timestamp := some now }

/-- `fail_worker(...)`. -/
def failWorker (s : AgentState) (workerId error now : String) : AgentState :=
  match alistGet s.workers workerId with
  | none => s
  | some w =>
      { s with
        workers := alistSet s.workers workerId
          { w with status := "error", error := some error },
        timestamp := some now }

/-- `set_worker_clarification(...)`: set `clarifying` with a question,
or clear back to `running`. -/
def setWorkerClarification (s : AgentState) (workerId : String)
    (clarification : Option String) (now : String) : AgentState :=
  match alistGet s.workers workerId with
  | none => s
  | some w =>
      { s with
        workers := alistSet s.workers workerId
          { w with
            status := match clarification with
              | some _ => "clarifying"
              | none => "running",
            clarification := clarification },
        timestamp := some now }

/-! ## Orchestrator planning phase (proxy/agents/orchestrator.py)

The reply of the planning call is embedded post-`json.loads`: `none`
stands for text that is not parseable JSON (`json.JSONDecodeError`),
`some j` for the parsed value. -/

/-- A parsed JSON value. -/
inductive Json where
  | null
  | bool (b : Bool)
  | num (n : Int)
  | str (s : String)
  | arr (items : List Json)
  | obj (fields : List (String × Json))

/-- Python `key in dict`. -/
def jsonHasKey (fields : List (String × Json)) (k : String) : Bool :=
  fields.any (fun kv => kv.1 = k)

/-- Python `dict[key]` (for duplicate keys `json.loads` keeps the last
binding). -/
def jsonGetKey (fields : List (String × Json)) (k : String) : Option Json :=
  fields.foldl (fun acc kv => if kv.1 = k then some kv.2 else acc) none

/-- Python truthiness of a JSON value (`if not tasks`). -/
def jsonTruthy : Json → Bool
  | .null => false
  | .bool b => b
  | .num n => n ≠ 0
  | .str s => s ≠ ""
  | .arr items => ¬ items.isEmpty
  | .obj fields => ¬ fields.isEmpty

/-- What `for task in plan["tasks"]` iterates: the elements of a list,
the keys of a dict, the one-character strings of a string; anything
else raises `TypeError`. -/
def jsonIter : Json → Option (List Json)
  | .arr items => some items
  | .obj fields => some (fields.map (fun kv => Json.str kv.1))
  | .str s => some (s.data.map (fun c => Json.str (String.mk [c])))
  | _ => none

/-- One iterated task is accepted when it is a dict carrying `id`,
`agent` and `description`. -/
def taskShapeOk : Json → Bool
  | .obj fields =>
      jsonHasKey fields "id" ∧ jsonHasKey fields "agent" ∧
        jsonHasKey fields "description"
  | _ => false

/-- Outcome of `_parse_plan_response`: the plan dict, `None`, or an
uncaught `TypeError` from iterating a non-iterable `tasks` value. -/
inductive PlanParse where
  | ok (plan : Json)
  | reject
  | typeError

/-- `_parse_plan_response` on the `json.loads` result of the cleaned
reply text. -/
def parsePlanResponse (reply : Option Json) : PlanParse :=
  match reply with
  | none => .reject
  | some plan =>
      match plan with
      | .obj fields =>
          if jsonHasKey fields "tasks" then
            match jsonIter ((jsonGetKey fields "tasks").getD .null) with
            | none => .typeError
            | some tasks =>
                if tasks.all taskShapeOk then .ok plan else .reject
          else .reject
      | _ => .reject

/-- Outcome of the planning phase of `Orchestrator.run` (steps 1–3 up
to lock acquisition): either the run fails with a recorded error before
any worker is spawned, or the validated task list is handed to
delegation. -/
inductive PlanPhase where
  | failed (error : String)
  | delegate (tasks : List Json)

/-- The planning phase of `Orchestrator.run`: a rejected reply fails the
run with "Failed to create task plan"; a `TypeError` escapes to the
generic handler ("An unexpected error occurred"); an accepted plan with
a falsy `tasks` value fails with "Orchestrator produced no tasks"; only
otherwise are workers delegated. -/
def orchestratorPlanPhase (reply : Option Json) : PlanPhase :=
  match parsePlanResponse reply with
  | .typeError => .failed "An unexpected error occurred"
  | .reject => .failed "Failed to create task plan"
  | .ok plan =>
      match plan with
      | .obj fields =>
          let tasks := (jsonGetKey fields "tasks").getD .null
          if jsonTruthy tasks then
            match tasks with
            | .arr items => .delegate items
            | _ => .delegate []
          else .failed "Orchestrator produced no tasks"
      | _ => .failed "Failed to create task plan"

/-- A planning reply is well formed when it is parseable JSON, a dict,
and its `tasks` value is a non-empty list of dicts each carrying `id`,
`agent` and `description`. -/
def GoodPlanReply (reply : Option Json) : Prop :=
  ∃ fields tasks, reply = some (.obj fields) ∧
    jsonGetKey fields "tasks" = some (.arr tasks) ∧ tasks ≠ [] ∧
    ∀ t ∈ tasks, taskShapeOk t = true

/-! ## Claim C5 — all_workers_done -/

/-- C5: `all_workers_done()` is true iff zero workers are registered or
every registered worker's status is `success` or `error`; any
registered worker in `running` or `clarifying` makes it false. -/
theorem allWorkersDone_iff (s : AgentState) :
    (allWorkersDone s = true ↔
      (s.workers = [] ∨
        ∀ w ∈ s.workers, w.2.status = "success" ∨ w.2.status = "error")) ∧
    (∀ w ∈ s.workers,
      (w.2.status = "running" ∨ w.2.status = "clarifying") →
        allWorkersDone s = false) := by
  constructor
  · rw [allWorkersDone, List.all_eq_true]
    constructor
    · intro h
      right
      intro w hw
      simpa using h w hw
    · intro h w hw
      rcases h with h | h
      · rw [h] at hw
        cases hw
      · simpa using h w hw
  · intro w hw hst
    by_contra hcontra
    have htrue : allWorkersDone s = true := by
      revert hcontra
      cases allWorkersDone s <;> simp
    rw [allWorkersDone, List.all_eq_true] at htrue
    have h2 := htrue w hw
    simp only [decide_eq_true_eq] at h2
    rcases hst with h | h <;> rw [h] at h2 <;> simp at h2

/-- Witness for C5: one `running` worker makes `all_workers_done` false,
and with terminal workers it is true. -/
theorem allWorkersDone_iff_witness :
    allWorkersDone
      { initialState with
        workers := [("w1", ⟨"running", "c", "n", "t", 0, [], [], none, none, none⟩)] }
      = false ∧
    allWorkersDone
      { initialState with
        workers := [("w1", ⟨"success", "c", "n", "t", 0, [], [], none, none, none⟩),
                    ("w2", ⟨"error", "c", "n", "t", 0, [], [], none, none, none⟩)] }
      = true := by
  constructor
  · exact (allWorkersDone_iff
      { initialState with
        workers := [("w1", ⟨"running", "c", "n", "t", 0, [], [], none, none, none⟩)] }).2
      ("w1", ⟨"running", "c", "n", "t", 0, [], [], none, none, none⟩)
      (by simp) (Or.inl rfl)
  · exact (allWorkersDone_iff
      { initialState with
        workers := [("w1", ⟨"success", "c", "n", "t", 0, [], [], none, none, none⟩),
                    ("w2", ⟨"error", "c", "n", "t", 0, [], [], none, none, none⟩)] }).1.mpr
      (Or.inr (by
        intro w hw
        simp only [List.mem_cons, List.not_mem_nil, or_false] at hw
        rcases hw with h | h <;> (subst h; simp)))

/-! ## Claim C10 — start_run and stale state -/

/-- C10 counterexample: `start_run` spreads the previous state, so the
worker record and the error of a finished run are still present after
the next run's `start_run` has moved the status to `planning`. -/
theorem startRun_counterexample :
    ((startRun (failRun (registerWorker (startRun initialState "r1" "t1")
        "w1" "cfg" "Frontend" "fix the button" "t2") "boom" "t3") "r2" "t4").workers
      ≠ []) ∧
    ((startRun (failRun (registerWorker (startRun initialState "r1" "t1")
        "w1" "cfg" "Frontend" "fix the button" "t2") "boom" "t3") "r2" "t4").error
      = some "boom") ∧
    ((startRun (failRun (registerWorker (startRun initialState "r1" "t1")
        "w1" "cfg" "Frontend" "fix the button" "t2") "boom" "t3") "r2" "t4").status
      = "planning") := by
  refine ⟨?_, rfl, rfl⟩
  simp [startRun, failRun, registerWorker, initialState, alistSet]

/-- C10 amended: `start_run` sets only `run_id`, `status = "planning"`
and the timestamp; worker records, message, error, orchestrator and
reviewer entries of the previous run persist until an explicit
`reset()`, which alone restores the initial idle value. -/
theorem startRun_frame (s : AgentState) (runId now : String) :
    (startRun s runId now).runId = some runId ∧
    (startRun s runId now).status = "planning" ∧
    (startRun s runId now).timestamp = some now ∧
    (startRun s runId now).workers = s.workers ∧
    (startRun s runId now).message = s.message ∧
    (startRun s runId now).error = s.error ∧
    (startRun s runId now).orchestrator = s.orchestrator ∧
    (startRun s runId now).reviewer = s.reviewer ∧
    resetState.workers = [] ∧ resetState.message = none ∧
    resetState.error = none ∧ resetState.status = "idle" :=
  ⟨rfl, rfl, rfl, rfl, rfl, rfl, rfl, rfl, rfl, rfl, rfl, rfl⟩

/-! ## Claim C8 — plan rejection -/

theorem jsonGetKey_isSome (fields : List (String × Json)) (k : String) :
    (jsonGetKey fields k).isSome = jsonHasKey fields k := by
  suffices h : ∀ acc : Option Json,
      (fields.foldl (fun acc kv => if kv.1 = k then some kv.2 else acc) acc).isSome
        = (jsonHasKey fields k || acc.isSome) by
    simpa using h none
  induction fields with
  | nil => intro acc; simp [jsonHasKey]
  | cons kv rest ih =>
      intro acc
      by_cases hk : kv.1 = k
      · simp [jsonHasKey, List.foldl_cons, hk, ih, List.any_cons]
      · simp [jsonHasKey, List.foldl_cons, hk, ih, List.any_cons]

/-- C8: a planning reply that is not parseable JSON with a non-empty
`tasks` list of dicts each carrying `id`, `agent` and `description`
makes the planning phase fail the run with a non-empty descriptive
error, never reaching worker delegation (`PlanPhase.failed` is the
branch of `Orchestrator.run` that records the error and returns before
any worker is spawned). -/
theorem planPhase_rejects_bad_reply (reply : Option Json)
    (hbad : ¬ GoodPlanReply reply) :
    ∃ msg, orchestratorPlanPhase reply = .failed msg ∧ msg ≠ "" := by
  match reply with
  | none => exact ⟨"Failed to create task plan", rfl, by decide⟩
  | some (.null) => exact ⟨"Failed to create task plan", rfl, by decide⟩
  | some (.bool b) => exact ⟨"Failed to create task plan", rfl, by decide⟩
  | some (.num n) => exact ⟨"Failed to create task plan", rfl, by decide⟩
  | some (.str s) => exact ⟨"Failed to create task plan", rfl, by decide⟩
  | some (.arr items) => exact ⟨"Failed to create task plan", rfl, by decide⟩
  | some (.obj fields) =>
      by_cases hk : jsonHasKey fields "tasks"
      · have hsome : (jsonGetKey fields "tasks").isSome := by
          rw [jsonGetKey_isSome, hk]
        obtain ⟨v, hv⟩ := Option.isSome_iff_exists.mp hsome
        cases v with
        | arr items =>
            by_cases hall : items.all taskShapeOk
            · have hempty : items = [] := by
                by_contra hne
                exact hbad ⟨fields, items, rfl, hv, hne,
                  fun t ht => List.all_eq_true.mp hall t ht⟩
              subst hempty
              refine ⟨"Orchestrator produced no tasks", ?_, by decide⟩
              simp [orchestratorPlanPhase, parsePlanResponse, hk, hv, jsonIter,
                jsonTruthy]
            · refine ⟨"Failed to create task plan", ?_, by decide⟩
              simp [orchestratorPlanPhase, parsePlanResponse, hk, hv, jsonIter,
                hall]
        | obj kvs =>
            by_cases hkv : kvs.isEmpty
            · have hkv' : kvs = [] := by simpa [List.isEmpty_iff] using hkv
              subst hkv'
              refine ⟨"Orchestrator produced no tasks", ?_, by decide⟩
              simp [orchestratorPlanPhase, parsePlanResponse, hk, hv, jsonIter,
                jsonTruthy]
            · refine ⟨"Failed to create task plan", ?_, by decide⟩
              have hne : ∃ kv, kv ∈ kvs := by
                cases kvs with
                | nil => simp at hkv
                | cons a t => exact ⟨a, by simp⟩
              obtain ⟨kv, hkvmem⟩ := hne
              have hnotall : ¬ (kvs.map (fun kv => Json.str kv.1)).all taskShapeOk := by
                intro hall
                have := List.all_eq_true.mp hall (Json.str kv.1)
                  (List.mem_map_of_mem _ hkvmem)
                simp [taskShapeOk] at this
              simp [orchestratorPlanPhase, parsePlanResponse, hk, hv, jsonIter,
                hnotall]
        | str s =>
            by_cases hs : s.data.isEmpty
            · have hs' : s.data = [] := by simpa [List.isEmpty_iff] using hs
              refine ⟨"Orchestrator produced no tasks", ?_, by decide⟩
              have hsempty : s = "" := by
                cases s
                simp at hs'
                simp [hs']
              subst hsempty
              simp [orchestratorPlanPhase, parsePlanResponse, hk, hv, jsonIter,
                jsonTruthy]
            · have hs' : ∃ c, c ∈ s.data :=
                List.exists_mem_of_ne_nil _ (by simpa [List.isEmpty_iff] using hs)
              obtain ⟨c, hc⟩ := hs'
              refine ⟨"Failed to create task plan", ?_, by decide⟩
              have hnotall : ¬ (s.data.map (fun c => Json.str (String.mk [c]))).all
                  taskShapeOk := by
                intro hall
                have := List.all_eq_true.mp hall (Json.str (String.mk [c]))
                  (List.mem_map_of_mem _ hc)
                simp [taskShapeOk] at this
              simp [orchestratorPlanPhase, parsePlanResponse, hk, hv, jsonIter,
                hnotall]
        | null =>
            refine ⟨"An unexpected error occurred", ?_, by decide⟩
            simp [orchestratorPlanPhase, parsePlanResponse, hk, hv, jsonIter]
        | bool b =>
            refine ⟨"An unexpected error occurred", ?_, by decide⟩
            simp [orchestratorPlanPhase, parsePlanResponse, hk, hv, jsonIter]
        | num n =>
            refine ⟨"An unexpected error occurred", ?_, by decide⟩
            simp [orchestratorPlanPhase, parsePlanResponse, hk, hv, jsonIter]
      · refine ⟨"Failed to create task plan", ?_, by decide⟩
        simp [orchestratorPlanPhase, parsePlanResponse, hk]

/-- Witness for C8: the unparseable reply (`json.loads` failure) fails
the run with a non-empty error before delegation. -/
theorem planPhase_rejects_bad_reply_witness :
    (¬ GoodPlanReply none) ∧
    ∃ msg, orchestratorPlanPhase none = .failed msg ∧ msg ≠ "" := by
  have hbad : ¬ GoodPlanReply none := by
    intro ⟨fields, tasks, h, _⟩
    cases h
  exact ⟨hbad, planPhase_rejects_bad_reply none hbad⟩

/-! ## Claim C3 — capture_file -/

theorem alistGet_set {κ ν : Type} [DecidableEq κ] (l : List (κ × ν)) (k q : κ)
    (v : ν) :
    alistGet (alistSet l k v) q = if q = k then some v else alistGet l q := by
  induction l with
  | nil =>
      by_cases h : q = k
      · simp [alistSet, alistGet, h]
      · have h' : ¬ k = q := fun hc => h hc.symm
        simp [alistSet, alistGet, h, h']
  | cons pr rest ih =>
      obtain ⟨k', v'⟩ := pr
      by_cases hk : k' = k
      · subst hk
        by_cases hq : q = k'
        · subst hq
          simp [alistSet, alistGet]
        · have hq' : ¬ k' = q := fun hc => hq hc.symm
          simp [alistSet, alistGet, hq, hq']
      · by_cases hq : k' = q
        · subst hq
          simp [alistSet, alistGet, hk]
        · simp [alistSet, alistGet, hk, hq, ih]

/-- Overwriting an overwritten binding keeps only the last value. -/
theorem alistSet_set {κ ν : Type} [DecidableEq κ] (l : List (κ × ν)) (k : κ)
    (v w : ν) : alistSet (alistSet l k v) k w = alistSet l k w := by
  induction l with
  | nil => simp [alistSet]
  | cons pr rest ih =>
      obtain ⟨k', v'⟩ := pr
      by_cases hk : k' = k
      · subst hk
        simp [alistSet]
      · simp [alistSet, hk, ih]

theorem updateRun_of_findRun_none (store : SnapStore) (rid : String)
    (f : SnapRun → SnapRun) (h : findRun store rid = none) :
    updateRun store rid f = store := by
  induction store with
  | nil => rfl
  | cons r rest ih =>
      by_cases hr : r.runId = rid
      · simp [findRun, hr] at h
      · simp only [findRun, if_neg hr] at h
        simp [updateRun, hr] at ih ⊢
        exact ih h

theorem findRun_updateRun (store : SnapStore) (rid : String)
    (f : SnapRun → SnapRun) (hf : ∀ r, (f r).runId = r.runId) :
    findRun (updateRun store rid f) rid = Option.map f (findRun store rid) := by
  induction store with
  | nil => rfl
  | cons r rest ih =>
      by_cases hr : r.runId = rid
      · simp [updateRun, findRun, hr, hf]
      · simp only [updateRun, List.map_cons, if_neg hr, findRun, hf]
        simp only [findRun, if_neg hr] at ih ⊢
        simpa [updateRun] using ih

theorem updateRun_updateRun (store : SnapStore) (rid : String)
    (f g : SnapRun → SnapRun) (hf : ∀ r, (f r).runId = r.runId) :
    updateRun (updateRun store rid f) rid g
      = updateRun store rid (fun r => g (f r)) := by
  unfold updateRun
  rw [List.map_map]
  apply List.map_congr_left
  intro r _
  by_cases h : r.runId = rid
  · simp [Function.comp, h, hf]
  · simp [Function.comp, h]

/-- C3 counterexample: capture is not idempotent per path per run.  The
file starts as `"A"`, is captured, changes on disk to `"B"`, and a
second capture call for the same path in the same run overwrites the
stored snapshot content with `"B"`. -/
theorem captureFile_not_idempotent :
    (captureFile [(["a.txt"], "B")]
        (captureFile [(["a.txt"], "A")] (initSnapshot [] "r1") "r1" "a.txt").1
        "r1" "a.txt").1
      = [⟨"r1", some ⟨"in_progress", [], none⟩, [(["a.txt"], "B")]⟩] ∧
    (captureFile [(["a.txt"], "A")] (initSnapshot [] "r1") "r1" "a.txt").1
      = [⟨"r1", some ⟨"in_progress", [], none⟩, [(["a.txt"], "A")]⟩] ∧
    ("B" : String) ≠ "A" := by
  refine ⟨?_, ?_, by decide⟩ <;> decide

/-- C3 amended: `capture_file` skips silently (returning false) for
paths that resolve outside the project root and for missing files;
otherwise it returns true and copies the current on-disk content over
the run's stored copy for that path, so a repeated capture is a no-op
only while the on-disk content is unchanged (the first-write content is
kept only if no later capture happens for the path in the run). -/
theorem captureFile_spec (tree : FileTree) (store : SnapStore)
    (rid p : String) :
    (resolveUnder (pathSegments p) = none →
        captureFile tree store rid p = (store, false)) ∧
    (∀ canon, resolveUnder (pathSegments p) = some canon →
        treeGet tree canon = none →
        captureFile tree store rid p = (store, false)) ∧
    (∀ canon content, resolveUnder (pathSegments p) = some canon →
        treeGet tree canon = some content →
        (captureFile tree store rid p).2 = true ∧
        ∀ r, findRun (captureFile tree store rid p).1 rid = some r →
          alistGet r.captured canon = some content) ∧
    captureFile tree (captureFile tree store rid p).1 rid p
      = captureFile tree store rid p := by
  refine ⟨?_, ?_, ?_, ?_⟩
  · intro h
    simp [captureFile, h]
  · intro canon hres hmiss
    simp [captureFile, hres, hmiss]
  · intro canon content hres hit
    by_cases hrun : (findRun store rid).isSome
    · constructor
      · simp [captureFile, hres, hit, hrun]
      · intro r hr
        simp only [captureFile, hres, hit, hrun, if_true] at hr
        rw [findRun_updateRun store rid
          (fun r => { r with captured := alistSet r.captured canon content })
          (fun r => rfl)] at hr
        cases hfind : findRun store rid with
        | none => rw [hfind] at hr; cases hr
        | some r0 =>
            rw [hfind] at hr
            simp only [Option.map_some'] at hr
            injection hr with hr
            rw [← hr]
            simp [alistGet_set]
    · constructor
      · simp [captureFile, hres, hit, hrun]
      · intro r hr
        simp only [captureFile, hres, hit, hrun, if_false] at hr
        simp only [findRun] at hr
        rw [if_pos trivial] at hr
        injection hr with hr
        rw [← hr]
        simp [alistGet]
  · cases hres : resolveUnder (pathSegments p) with
    | none => simp [captureFile, hres]
    | some canon =>
        cases hit : treeGet tree canon with
        | none => simp [captureFile, hres, hit]
        | some content =>
            by_cases hrun : (findRun store rid).isSome
            · have h1 : captureFile tree store rid p
                  = (updateRun store rid (fun r =>
                      { r with captured := alistSet r.captured canon content }),
                    true) := by
                simp [captureFile, hres, hit, hrun]
              have hrun2 : (findRun (updateRun store rid (fun r =>
                  { r with captured := alistSet r.captured canon content }))
                  rid).isSome := by
                rw [findRun_updateRun store rid
                  (fun r => { r with captured := alistSet r.captured canon content })
                  (fun r => rfl)]
                cases hfind : findRun store rid with
                | none => rw [hfind] at hrun; cases hrun
                | some r0 => simp
              have hfix : updateRun (updateRun store rid (fun r =>
                    { r with captured := alistSet r.captured canon content })) rid
                    (fun r => { r with captured := alistSet r.captured canon content })
                  = updateRun store rid (fun r =>
                    { r with captured := alistSet r.captured canon content }) := by
                rw [updateRun_updateRun store rid
                  (fun r => { r with captured := alistSet r.captured canon content })
                  (fun r => { r with captured := alistSet r.captured canon content })
                  (fun r => rfl)]
                unfold updateRun
                apply List.map_congr_left
                intro r _
                by_cases h : r.runId = rid
                · simp [h, alistSet_set]
                · simp [h]
              rw [h1]
              simp only [captureFile, hres, hit, hrun2, if_true, hfix]
            · have h1 : captureFile tree store rid p
                  = (⟨rid, none, [(canon, content)]⟩ :: store, true) := by
                simp [captureFile, hres, hit, hrun]
              have hnone : findRun store rid = none := by
                cases hfind : findRun store rid with
                | none => rfl
                | some r0 => rw [hfind] at hrun; simp at hrun
              have hrun2 : (findRun
                  ((⟨rid, none, [(canon, content)]⟩ : SnapRun) :: store)
                  rid).isSome := by
                simp [findRun]
              have hfix : updateRun
                    ((⟨rid, none, [(canon, content)]⟩ : SnapRun) :: store) rid
                    (fun r => { r with captured := alistSet r.captured canon content })
                  = (⟨rid, none, [(canon, content)]⟩ : SnapRun) :: store := by
                simp only [updateRun, List.map_cons]
                rw [if_pos trivial]
                have htail := updateRun_of_findRun_none store rid
                  (fun r => { r with captured := alistSet r.captured canon content })
                  hnone
                simp only [updateRun] at htail
                rw [htail]
                simp [alistSet]
              rw [h1]
              simp only [captureFile, hres, hit, hrun2, if_true, hfix]

/-- Witness for C3 (amended) at a present file and a safe path. -/
theorem captureFile_spec_witness :
    resolveUnder (pathSegments "a.txt") = some [("a.txt" : String)] ∧
    treeGet [(["a.txt"], "A")] ["a.txt"] = some "A" ∧
    ((captureFile [(["a.txt"], "A")] (initSnapshot [] "r1") "r1" "a.txt").2 = true ∧
      ∀ r, findRun
          (captureFile [(["a.txt"], "A")] (initSnapshot [] "r1") "r1" "a.txt").1
          "r1" = some r →
        alistGet r.captured ["a.txt"] = some "A") := by
  refine ⟨by decide, by decide, ?_⟩
  exact (captureFile_spec [(["a.txt"], "A")] (initSnapshot [] "r1") "r1"
    "a.txt").2.2.1 ["a.txt"] "A" (by decide) (by decide)

/-! ## Claim C2 — capture / restore round trip -/

theorem pyStartsWith_error (r : String) :
    pyStartsWith ("Error: " ++ r) "Error" = true := by
  unfold pyStartsWith
  rw [String.data_append]
  have h : ("Error: ").data = "Error".data ++ ": ".data := by decide
  rw [h, List.append_assoc]
  exact List.isPrefixOf_iff_prefix.mpr (List.prefix_append _ _)

theorem pyStartsWith_success (r : String) :
    pyStartsWith ("Successfully wrote " ++ r) "Error" = false := by
  unfold pyStartsWith
  rw [String.data_append, Bool.eq_false_iff]
  intro hpre
  have hp := List.prefix_iff_eq_take.mp (List.isPrefixOf_iff_prefix.mp hpre)
  rw [List.take_append_of_le_length (by decide)] at hp
  exact absurd hp (by decide)

/-- A successful write of an existing file with an active snapshot run:
the pre-write content is copied into the run before the tree is
updated. -/
theorem executeWriteFile_step (tree : FileTree) (store : SnapStore)
    (p c : String) (wc : Nat) (rid : String) (canon : List String)
    (prev : String)
    (hres : resolveUnder (pathSegments p) = some canon)
    (hname : strToLower (pathName p) ∉ BLOCKED_FILENAMES)
    (hsuffix : strToLower (pathSuffix (pathName p)) ∉ BLOCKED_EXTENSIONS)
    (hwc : wc < MAX_WRITES_PER_RUN)
    (hsize : c.utf8ByteSize ≤ MAX_WRITE_SIZE)
    (hprev : treeGet tree canon = some prev)
    (hrun : (findRun store rid).isSome) :
    executeWriteFile tree store p c wc (some rid)
      = ("Successfully wrote " ++ (toString c.utf8ByteSize ++ (" bytes to " ++ p)),
         treeSet tree canon c,
         updateRun store rid (fun r =>
           { r with captured := alistSet r.captured canon prev })) := by
  unfold executeWriteFile
  rw [if_neg (not_le.mpr hwc), if_neg hname, if_neg hsuffix]
  simp only [hres]
  rw [if_neg (not_lt.mpr hsize)]
  simp [captureFile, hres, hprev, hrun]

/-- Consecutive `write_file` tool calls to one path through
`execute_tool` with an active snapshot run id, as the single-agent loop
issues them. -/
def runWrites (tree : FileTree) (store : SnapStore) (rid p : String)
    (cs : List String) (writeCount : Nat) : FileTree × SnapStore × Nat :=
  cs.foldl (fun acc c =>
    let r := executeTool acc.1 acc.2.1 (.writeFile p c) acc.2.2 (some rid)
    (r.2.2.1, r.2.2.2, r.2.1)) (tree, store, writeCount)

theorem updateRun_capture_capture (store : SnapStore) (rid : String)
    (canon : List String) (a b : String) :
    updateRun (updateRun store rid (fun r =>
        { r with captured := alistSet r.captured canon a })) rid
      (fun r => { r with captured := alistSet r.captured canon b })
      = updateRun store rid (fun r =>
        { r with captured := alistSet r.captured canon b }) := by
  rw [updateRun_updateRun store rid
    (fun r => { r with captured := alistSet r.captured canon a })
    (fun r => { r with captured := alistSet r.captured canon b })
    (fun r => rfl)]
  unfold updateRun
  apply List.map_congr_left
  intro r _
  by_cases h : r.runId = rid
  · simp [h, alistSet_set]
  · simp [h]

theorem penult_cons (c : String) (rest : List String) (prev : String)
    (h : rest ≠ []) :
    ((c :: rest).dropLast).getLastD prev = (rest.dropLast).getLastD c := by
  cases rest with
  | nil => exact absurd rfl h
  | cons d ds =>
      rw [List.dropLast_cons₂, List.getLastD_cons]

/-- Iterated writes to one existing path: the tree ends at the last
content, the write counter advances by one per write, and the run's
stored copy holds exactly the content seen just before the last write
(the pre-write content of the final capture). -/
theorem runWrites_spec (cs : List String) (tree : FileTree)
    (store : SnapStore) (rid p : String) (canon : List String) (wc : Nat)
    (prev : String)
    (hres : resolveUnder (pathSegments p) = some canon)
    (hname : strToLower (pathName p) ∉ BLOCKED_FILENAMES)
    (hsuffix : strToLower (pathSuffix (pathName p)) ∉ BLOCKED_EXTENSIONS)
    (hprev : treeGet tree canon = some prev)
    (hrun : (findRun store rid).isSome)
    (hsizes : ∀ c ∈ cs, c.utf8ByteSize ≤ MAX_WRITE_SIZE)
    (hcount : wc + cs.length ≤ MAX_WRITES_PER_RUN) :
    treeGet (runWrites tree store rid p cs wc).1 canon
      = some (cs.getLastD prev) ∧
    (runWrites tree store rid p cs wc).2.2 = wc + cs.length ∧
    (runWrites tree store rid p cs wc).2.1
      = (if cs.isEmpty then store
         else updateRun store rid (fun r =>
           { r with captured :=
              alistSet r.captured canon (cs.dropLast.getLastD prev) })) := by
  induction cs generalizing tree store wc prev with
  | nil =>
      refine ⟨by simpa [runWrites] using hprev, by simp [runWrites], by simp [runWrites]⟩
  | cons c rest ih =>
      have hwc : wc < MAX_WRITES_PER_RUN := by
        simp only [List.length_cons] at hcount
        omega
      have hsize : c.utf8ByteSize ≤ MAX_WRITE_SIZE :=
        hsizes c (List.mem_cons_self c rest)
      have hstep := executeWriteFile_step tree store p c wc rid canon prev
        hres hname hsuffix hwc hsize hprev hrun
      have hfold : runWrites tree store rid p (c :: rest) wc
          = runWrites (treeSet tree canon c)
              (updateRun store rid (fun r =>
                { r with captured := alistSet r.captured canon prev }))
              rid p rest (wc + 1) := by
        unfold runWrites
        rw [List.foldl_cons]
        simp [executeTool, hstep, pyStartsWith_success]
      have hprev' : treeGet (treeSet tree canon c) canon = some c := by
        unfold treeGet treeSet
        rw [alistGet_set]
        simp
      have hrun' : (findRun (updateRun store rid (fun r =>
          { r with captured := alistSet r.captured canon prev })) rid).isSome := by
        rw [findRun_updateRun store rid
          (fun r => { r with captured := alistSet r.captured canon prev })
          (fun r => rfl)]
        cases hfind : findRun store rid with
        | none => rw [hfind] at hrun; cases hrun
        | some r0 => simp
      have hsizes' : ∀ x ∈ rest, x.utf8ByteSize ≤ MAX_WRITE_SIZE :=
        fun x hx => hsizes x (List.mem_cons_of_mem c hx)
      have hcount' : (wc + 1) + rest.length ≤ MAX_WRITES_PER_RUN := by
        simp only [List.length_cons] at hcount
        omega
      obtain ⟨ih1, ih2, ih3⟩ := ih (treeSet tree canon c)
        (updateRun store rid (fun r =>
          { r with captured := alistSet r.captured canon prev }))
        (wc + 1) c hprev' hrun' hsizes' hcount'
      refine ⟨?_, ?_, ?_⟩
      · rw [hfold, ih1, List.getLastD_cons]
      · rw [hfold, ih2]
        simp only [List.length_cons]
        omega
      · rw [hfold, ih3]
        cases rest with
        | nil => simp
        | cons d ds =>
            have hne : (d :: ds) ≠ ([] : List String) := by simp
            rw [if_neg (by simp), if_neg (by simp)]
            rw [updateRun_capture_capture]
            rw [penult_cons c (d :: ds) prev hne]

theorem insertRunDesc_length (x : SnapRun) (l : List SnapRun) :
    (insertRunDesc x l).length = l.length + 1 := by
  induction l with
  | nil => rfl
  | cons y ys ih =>
      unfold insertRunDesc
      by_cases h : strLt x.runId y.runId
      · simp [h, ih]
      · simp [h]

theorem sortRunsDesc_length (l : List SnapRun) :
    (sortRunsDesc l).length = l.length := by
  induction l with
  | nil => rfl
  | cons x xs ih => simp [sortRunsDesc, insertRunDesc_length, ih]

/-- With at most `MAX_FULL_SNAPSHOTS` manifests present, pruning is the
identity. -/
theorem pruneSnapshots_of_le (store : SnapStore)
    (h : (store.filter (fun r => r.manifest.isSome)).length
      ≤ MAX_FULL_SNAPSHOTS) :
    pruneSnapshots store = store := by
  unfold pruneSnapshots
  have h2 : ((sortRunsDesc (store.filter fun r => r.manifest.isSome)).drop
      MAX_FULL_SNAPSHOTS) = [] := by
    apply List.drop_eq_nil_of_le
    rw [sortRunsDesc_length]
    exact h
  simp [h2]

/-- C2 counterexample: the file starts as `"A"` and is overwritten
twice within the run, first with `"B"`, then with `"C"`; restoring the
finalized run yields `"B"` (the content before the run's last write),
not the original `"A"`. -/
theorem snapshot_restore_counterexample :
    ((restoreSnapshot
        (finalizeSnapshot
          (runWrites [(["a.txt"], "A")] (initSnapshot [] "r1")
            "r1" "a.txt" ["B", "C"] 0).2.1
          "r1" ["a.txt"] "edit a.txt" "success")
        (runWrites [(["a.txt"], "A")] (initSnapshot [] "r1")
          "r1" "a.txt" ["B", "C"] 0).1
        "r1").map (fun res => treeGet res.2 ["a.txt"]))
      = some (some "B") ∧ ("B" : String) ≠ "A" := by
  constructor <;> decide

/-- C2 amended: restoring a run reproduces, for each captured file, the
content it had immediately before the run's *last* write to it (each
write re-captures, so later writes within the run move what restore
produces); when the run wrote the file at most once, that is the exact
original pre-run byte content. -/
theorem snapshot_restore_last_write (rid p summary : String)
    (canon : List String) (tree : FileTree) (c0 : String)
    (cs : List String)
    (hres : resolveUnder (pathSegments p) = some canon)
    (hname : strToLower (pathName p) ∉ BLOCKED_FILENAMES)
    (hsuffix : strToLower (pathSuffix (pathName p)) ∉ BLOCKED_EXTENSIONS)
    (hc0 : treeGet tree canon = some c0)
    (hsizes : ∀ c ∈ cs, c.utf8ByteSize ≤ MAX_WRITE_SIZE)
    (hcount : cs.length ≤ MAX_WRITES_PER_RUN)
    (hne : cs ≠ []) :
    restoreSnapshot
        (finalizeSnapshot (runWrites tree (initSnapshot [] rid) rid p cs 0).2.1
          rid [p] summary "success")
        (runWrites tree (initSnapshot [] rid) rid p cs 0).1 rid
      = some ([p], treeSet (runWrites tree (initSnapshot [] rid) rid p cs 0).1
          canon (cs.dropLast.getLastD c0)) ∧
    treeGet (treeSet (runWrites tree (initSnapshot [] rid) rid p cs 0).1
        canon (cs.dropLast.getLastD c0)) canon
      = some (cs.dropLast.getLastD c0) ∧
    (cs.length = 1 → cs.dropLast.getLastD c0 = c0) := by
  have hrun : (findRun (initSnapshot [] rid) rid).isSome := by
    simp [initSnapshot, findRun]
  obtain ⟨h1, h2, h3⟩ := runWrites_spec cs tree (initSnapshot [] rid) rid p
    canon 0 c0 hres hname hsuffix hc0 hrun hsizes (by simpa using hcount)
  have hcs : cs.isEmpty = false := by
    cases cs with
    | nil => exact absurd rfl hne
    | cons a t => rfl
  rw [hcs] at h3
  simp only [Bool.false_eq_true, if_false] at h3
  have hstore : (runWrites tree (initSnapshot [] rid) rid p cs 0).2.1
      = [⟨rid, some ⟨"in_progress", [], none⟩,
          [(canon, cs.dropLast.getLastD c0)]⟩] := by
    rw [h3]
    simp [initSnapshot, updateRun, alistSet]
  have hfin : finalizeSnapshot (runWrites tree (initSnapshot [] rid)
        rid p cs 0).2.1 rid [p] summary "success"
      = [⟨rid, some ⟨"success", [p], some summary⟩,
          [(canon, cs.dropLast.getLastD c0)]⟩] := by
    rw [hstore]
    unfold finalizeSnapshot
    simp only [findRun, if_pos rfl]
    rw [pruneSnapshots_of_le _ (le_trans (List.length_filter_le _ _)
      (by simp [updateRun, MAX_FULL_SNAPSHOTS]))]
    simp [updateRun, VALID_FINAL_STATUSES]
  refine ⟨?_, ?_, ?_⟩
  · rw [hfin]
    unfold restoreSnapshot
    simp only [findRun, if_pos rfl]
    simp [hres, alistGet]
  · unfold treeGet treeSet
    rw [alistGet_set]
    simp
  · intro hlen
    cases cs with
    | nil => cases hne rfl
    | cons a t =>
        simp only [List.length_cons] at hlen
        have ht : t = [] := List.length_eq_zero.mp (by omega)
        subst ht
        simp

/-- Witness for C2 (amended): a single write of `"B"` over `"A"`
restores the original `"A"`. -/
theorem snapshot_restore_last_write_witness :
    (resolveUnder (pathSegments "a.txt") = some [("a.txt" : String)]) ∧
    restoreSnapshot
        (finalizeSnapshot
          (runWrites [(["a.txt"], "A")] (initSnapshot [] "r1")
            "r1" "a.txt" ["B"] 0).2.1
          "r1" ["a.txt"] "edit" "success")
        (runWrites [(["a.txt"], "A")] (initSnapshot [] "r1")
          "r1" "a.txt" ["B"] 0).1 "r1"
      = some (["a.txt"],
          treeSet (runWrites [(["a.txt"], "A")] (initSnapshot [] "r1")
            "r1" "a.txt" ["B"] 0).1
            ["a.txt"] ((["B"] : List String).dropLast.getLastD "A")) := by
  refine ⟨by decide, (snapshot_restore_last_write "r1" "a.txt" "edit" ["a.txt"]
    [(["a.txt"], "A")] "A" ["B"] (by decide) (by decide) (by decide) (by decide)
    (by decide) (by decide) (by decide)).1⟩

/-! ## Claim C4 — capture before write -/

/-- A write dispatched without a snapshot run id never touches the
snapshot store. -/
theorem executeWriteFile_none_store (tree : FileTree) (store : SnapStore)
    (p c : String) (wc : Nat) :
    (executeWriteFile tree store p c wc none).2.2 = store := by
  unfold executeWriteFile
  split
  · rfl
  · split
    · rfl
    · split
      · rfl
      · split
        · rfl
        · split
          · rfl
          · rfl

/-- A write with a snapshot run id to a path with no prior content
(new file) never captures. -/
theorem executeWriteFile_new_file (tree : FileTree) (store : SnapStore)
    (p c : String) (wc : Nat) (rid : String) (canon : List String)
    (hres : resolveUnder (pathSegments p) = some canon)
    (hmiss : treeGet tree canon = none) :
    (executeWriteFile tree store p c wc (some rid)).2.2 = store := by
  unfold executeWriteFile
  split
  · rfl
  · split
    · rfl
    · split
      · rfl
      · simp only [hres]
        split
        · rfl
        · simp [hmiss]

/-- C4 counterexample: a worker's write tool call that overwrites an
existing file leaves the snapshot store untouched (the worker invokes
the executor with no snapshot run id), even though a snapshot run is
open: the file `"A"` is overwritten with `"B"` and the run's captured
set stays empty. -/
theorem worker_write_no_capture :
    (workerExecuteSingleTool [] "w1"
        ⟨0, [], [(["a.txt"], "A")], initSnapshot [] "r1"⟩
        (.writeFile "a.txt" "B")).2.snaps
      = [⟨"r1", some ⟨"in_progress", [], none⟩, []⟩] ∧
    treeGet (workerExecuteSingleTool [] "w1"
        ⟨0, [], [(["a.txt"], "A")], initSnapshot [] "r1"⟩
        (.writeFile "a.txt" "B")).2.tree ["a.txt"] = some "B" := by
  constructor <;> decide

/-- C4 amended: a worker-issued write never captures (the worker passes
no snapshot run id to the executor); the executor captures the exact
pre-write content before overwriting precisely when it is given an
active snapshot run id and the target exists (as in the single-agent
loop, which passes its run id), and a new file (no prior content) is
never snapshotted. -/
theorem capture_before_write_spec (locks : LockTable) (wid : String)
    (st : WorkerSt) (tree : FileTree) (store : SnapStore) (p c : String)
    (wc : Nat) (rid : String) (canon : List String) (prev : String) :
    ((workerExecuteSingleTool locks wid st (.writeFile p c)).2.snaps
      = st.snaps) ∧
    (resolveUnder (pathSegments p) = some canon →
      strToLower (pathName p) ∉ BLOCKED_FILENAMES →
      strToLower (pathSuffix (pathName p)) ∉ BLOCKED_EXTENSIONS →
      wc < MAX_WRITES_PER_RUN →
      c.utf8ByteSize ≤ MAX_WRITE_SIZE →
      treeGet tree canon = some prev →
      (findRun store rid).isSome →
      executeWriteFile tree store p c wc (some rid)
        = ("Successfully wrote " ++ (toString c.utf8ByteSize ++
            (" bytes to " ++ p)),
          treeSet tree canon c,
          updateRun store rid (fun r =>
            { r with captured := alistSet r.captured canon prev }))) ∧
    (resolveUnder (pathSegments p) = some canon →
      treeGet tree canon = none →
      (executeWriteFile tree store p c wc (some rid)).2.2 = store) := by
  refine ⟨?_, ?_, ?_⟩
  · simp only [workerExecuteSingleTool]
    split
    · rfl
    · simp [executeTool, executeWriteFile_none_store]
  · intro hres hname hsuffix hwc hsize hprev hrun
    exact executeWriteFile_step tree store p c wc rid canon prev
      hres hname hsuffix hwc hsize hprev hrun
  · intro hres hmiss
    exact executeWriteFile_new_file tree store p c wc rid canon hres hmiss

/-- Witness for C4 (amended): the executor with an active run id
captures `"A"` before writing `"B"`; the worker dispatch does not. -/
theorem capture_before_write_spec_witness :
    (workerExecuteSingleTool [] "w1"
        ⟨0, [], [(["a.txt"], "A")], initSnapshot [] "r1"⟩
        (.writeFile "a.txt" "B")).2.snaps = initSnapshot [] "r1" ∧
    executeWriteFile [(["a.txt"], "A")] (initSnapshot [] "r1")
        "a.txt" "B" 0 (some "r1")
      = ("Successfully wrote " ++ (toString ("B" : String).utf8ByteSize ++
          (" bytes to " ++ "a.txt")),
        treeSet [(["a.txt"], "A")] ["a.txt"] "B",
        updateRun (initSnapshot [] "r1") "r1" (fun r =>
          { r with captured := alistSet r.captured ["a.txt"] "A" })) := by
  have h := capture_before_write_spec [] "w1"
    ⟨0, [], [(["a.txt"], "A")], initSnapshot [] "r1"⟩
    [(["a.txt"], "A")] (initSnapshot [] "r1") "a.txt" "B" 0 "r1"
    ["a.txt"] "A"
  exact ⟨h.1, h.2.1 (by decide) (by decide) (by decide) (by decide) (by decide)
    (by decide) (by decide)⟩

/-! ## Claims C6 and C7 — the worker loop -/

theorem insertAsc_length (x : String) (l : List String) :
    (insertAsc x l).length = l.length + 1 := by
  induction l with
  | nil => rfl
  | cons y ys ih =>
      unfold insertAsc
      by_cases h : strLt y x
      · simp [h, ih]
      · simp [h]

theorem sortStrings_length (l : List String) :
    (sortStrings l).length = l.length := by
  induction l with
  | nil => rfl
  | cons x xs ih => simp [sortStrings, insertAsc_length, ih]

theorem mem_insertAsc (x y : String) (l : List String) :
    y ∈ insertAsc x l ↔ y = x ∨ y ∈ l := by
  induction l with
  | nil => simp [insertAsc]
  | cons z zs ih =>
      unfold insertAsc
      by_cases h : strLt z x
      · rw [if_pos h]
        simp only [List.mem_cons, ih]
        tauto
      · rw [if_neg h]
        simp [List.mem_cons]

theorem mem_sortStrings (y : String) (l : List String) :
    y ∈ sortStrings l ↔ y ∈ l := by
  induction l with
  | nil => simp [sortStrings]
  | cons x xs ih =>
      simp only [sortStrings, mem_insertAsc, ih, List.mem_cons]

/-- Every exit of the worker loop reports `success` in the model (the
failure paths are missing credentials and provider/runtime exceptions,
which the oracle embedding has no transitions for). -/
theorem workerLoop_status (locks : LockTable) (wid : String)
    (script : Nat → ModelTurn) (maxTurns : Nat) :
    ∀ fuel turn st,
      (workerLoop locks wid script maxTurns fuel turn st).1.status
        = "success" := by
  intro fuel
  induction fuel with
  | zero => intro turn st; rfl
  | succ n ih =>
      intro turn st
      unfold workerLoop
      by_cases h : (script turn).stopReason = "end_turn"
      · simp [h, endTurnResult]
      · simp only [h, if_false]
        by_cases he : (script turn).toolCalls.isEmpty
        · simp [he, ceilingResult]
        · simp only [he, if_false, Bool.false_eq_true]
          exact ih (turn + 1) _

/-- Both result constructors of the loop report the sorted final
files-changed set. -/
theorem workerLoop_files (locks : LockTable) (wid : String)
    (script : Nat → ModelTurn) (maxTurns : Nat) :
    ∀ fuel turn st,
      (workerLoop locks wid script maxTurns fuel turn st).1.filesChanged
        = sortStrings
            (workerLoop locks wid script maxTurns fuel turn st).2.filesChanged := by
  intro fuel
  induction fuel with
  | zero => intro turn st; rfl
  | succ n ih =>
      intro turn st
      unfold workerLoop
      by_cases h : (script turn).stopReason = "end_turn"
      · simp [h, endTurnResult, ceilingResult]
      · simp only [h, if_false]
        by_cases he : (script turn).toolCalls.isEmpty
        · simp [he, ceilingResult]
        · simp only [he, if_false, Bool.false_eq_true]
          exact ih (turn + 1) _

/-- With no final answer in the first `fuel` turns, the loop runs to the
ceiling (or breaks on an empty tool batch) and synthesizes the
completion result. -/
theorem workerLoop_ceiling (locks : LockTable) (wid : String)
    (script : Nat → ModelTurn) (maxTurns : Nat) :
    ∀ fuel turn st,
      (∀ i, i < fuel → (script (turn + i)).stopReason ≠ "end_turn") →
      ∃ st', workerLoop locks wid script maxTurns fuel turn st
        = (ceilingResult maxTurns st', st') := by
  intro fuel
  induction fuel with
  | zero => intro turn st _; exact ⟨st, rfl⟩
  | succ n ih =>
      intro turn st h
      have h0 : (script turn).stopReason ≠ "end_turn" := by
        have := h 0 (Nat.succ_pos n)
        simpa using this
      unfold workerLoop
      simp only [h0, if_false]
      by_cases he : (script turn).toolCalls.isEmpty
      · exact ⟨workerProcessTools locks wid st (script turn).toolCalls,
          by simp [he]⟩
      · simp only [he, if_false, Bool.false_eq_true]
        refine ih (turn + 1) _ (fun i hi => ?_)
        have := h (i + 1) (by omega)
        have harith : turn + (i + 1) = turn + 1 + i := by omega
        rw [harith] at this
        exact this

/-- C6: when the model never returns a final answer within the turn
ceiling, the run ends in `success` (partial progress preserved), the
returned `files_changed` is exactly the sorted set of successfully
written paths accumulated by the loop (non-empty whenever anything was
written), and the message states the turn ceiling and the file count. -/
theorem worker_turn_ceiling (locks : LockTable) (wid : String)
    (script : Nat → ModelTurn) (maxTurns : Nat) (tree : FileTree)
    (snaps : SnapStore)
    (h : ∀ i, i < maxTurns → (script i).stopReason ≠ "end_turn") :
    (workerRun locks wid script maxTurns tree snaps).1.status = "success" ∧
    (workerRun locks wid script maxTurns tree snaps).1.filesChanged
      = sortStrings
          (workerRun locks wid script maxTurns tree snaps).2.filesChanged ∧
    (workerRun locks wid script maxTurns tree snaps).1.message
      = "Completed in " ++ (toString maxTurns ++ (" turns, modified " ++
          (toString (workerRun locks wid script maxTurns tree
            snaps).1.filesChanged.length ++ " file(s)"))) ∧
    ((workerRun locks wid script maxTurns tree snaps).2.filesChanged ≠ [] →
      (workerRun locks wid script maxTurns tree snaps).1.filesChanged ≠ []) := by
  obtain ⟨st', hst⟩ := workerLoop_ceiling locks wid script maxTurns maxTurns 0
    ⟨0, [], tree, snaps⟩ (fun i hi => by simpa using h i hi)
  unfold workerRun
  rw [hst]
  refine ⟨rfl, rfl, ?_, ?_⟩
  · simp [ceilingResult, sortStrings_length]
  · intro hne
    simp only [ceilingResult] at hne ⊢
    intro hcontra
    apply hne
    have := sortStrings_length st'.filesChanged
    rw [hcontra] at this
    exact List.length_eq_zero.mp this.symm

/-- Witness for C6: two tool-use turns with one successful write, no
final answer. -/
theorem worker_turn_ceiling_witness :
    (∀ i, i < 2 → ((fun (_ : Nat) =>
        (⟨"tool_use", none, [.writeFile "a.txt" "x"]⟩ : ModelTurn)) i).stopReason
      ≠ "end_turn") ∧
    (workerRun [] "w1" (fun _ => ⟨"tool_use", none, [.writeFile "a.txt" "x"]⟩)
        2 [] []).1.status = "success" ∧
    (workerRun [] "w1" (fun _ => ⟨"tool_use", none, [.writeFile "a.txt" "x"]⟩)
        2 [] []).1.message
      = "Completed in " ++ (toString 2 ++ (" turns, modified " ++
          (toString (workerRun [] "w1"
            (fun _ => ⟨"tool_use", none, [.writeFile "a.txt" "x"]⟩)
            2 [] []).1.filesChanged.length ++ " file(s)"))) := by
  have hh : ∀ i, i < 2 → ((fun (_ : Nat) =>
      (⟨"tool_use", none, [.writeFile "a.txt" "x"]⟩ : ModelTurn)) i).stopReason
      ≠ "end_turn" := by
    intro i _
    show ("tool_use" : String) ≠ "end_turn"
    decide
  have h := worker_turn_ceiling [] "w1"
    (fun _ => ⟨"tool_use", none, [.writeFile "a.txt" "x"]⟩) 2 [] [] hh
  exact ⟨hh, h.1, h.2.2.1⟩

/-- A write whose path resolves outside the project root always yields
an error result, whatever else holds. -/
theorem executeWriteFile_unsafe_error (tree : FileTree) (store : SnapStore)
    (p c : String) (wc : Nat) (runId : Option String)
    (hres : resolveUnder (pathSegments p) = none) :
    pyStartsWith (executeWriteFile tree store p c wc runId).1 "Error" = true := by
  unfold executeWriteFile
  split
  · exact pyStartsWith_error _
  · split
    · exact pyStartsWith_error _
    · split
      · exact pyStartsWith_error _
      · simp only [hres]
        exact pyStartsWith_error _

/-- A worker write tool call that is denied — locked by another owner
or outside the project root — returns an error string. -/
theorem workerWrite_denied_error (locks : LockTable) (wid : String)
    (st : WorkerSt) (p c : String)
    (hdeny : canWrite locks wid p = false ∨
      resolveUnder (pathSegments p) = none) :
    pyStartsWith (workerExecuteSingleTool locks wid st (.writeFile p c)).1
      "Error" = true := by
  simp only [workerExecuteSingleTool]
  by_cases hlock : canWrite locks wid p
  · rcases hdeny with hc | hres
    · rw [hlock] at hc
      cases hc
    · rw [if_neg (by simp [hlock])]
      simp only [executeTool]
      exact executeWriteFile_unsafe_error st.tree st.snaps p c st.writeCount
        none hres
  · rw [if_pos (by simpa using hlock)]
    exact pyStartsWith_error _

/-- A denied path never enters the files-changed accumulator of a tool
pass. -/
theorem workerProcessTools_not_mem (locks : LockTable) (wid : String)
    (p : String)
    (hdeny : canWrite locks wid p = false ∨
      resolveUnder (pathSegments p) = none) :
    ∀ (tcs : List ToolCall) (st : WorkerSt), p ∉ st.filesChanged →
      p ∉ (workerProcessTools locks wid st tcs).filesChanged := by
  intro tcs
  induction tcs with
  | nil => intro st h; exact h
  | cons tc rest ih =>
      intro st h
      unfold workerProcessTools
      rw [List.foldl_cons]
      have hstep : p ∉ ((fun st tc =>
          let r := workerExecuteSingleTool locks wid st tc
          match tc with
          | .writeFile q _ =>
              if pyStartsWith r.1 "Error" then r.2
              else { r.2 with filesChanged := addFile r.2.filesChanged q }
          | _ => r.2) st tc).filesChanged := by
        cases tc with
        | readOnlyTool res => exact h
        | readFile q => exact h
        | writeFile q c =>
            by_cases herr :
              pyStartsWith (workerExecuteSingleTool locks wid st
                (.writeFile q c)).1 "Error"
            · simp only [herr, if_true]
              simp only [workerExecuteSingleTool]
              by_cases hlock : canWrite locks wid q
              · rw [if_neg (by simp [hlock])]
                exact h
              · rw [if_pos (by simpa using hlock)]
                exact h
            · have hq : q ≠ p := by
                intro hqp
                subst hqp
                exact herr (workerWrite_denied_error locks wid st q c hdeny)
              simp only [herr, if_false]
              have hfiles : (workerExecuteSingleTool locks wid st
                  (.writeFile q c)).2.filesChanged = st.filesChanged := by
                simp only [workerExecuteSingleTool]
                by_cases hlock : canWrite locks wid q
                · rw [if_neg (by simp [hlock])]
                · rw [if_pos (by simpa using hlock)]
              rw [hfiles]
              unfold addFile
              by_cases hm : q ∈ st.filesChanged
              · simp only [hm, if_true]
                exact h
              · simp only [hm, if_false]
                intro hmem
                rcases List.mem_cons.mp hmem with hc | hc
                · exact hq hc.symm
                · exact h hc
      exact ih _ hstep

/-- The denied path stays out of the accumulator across the whole loop. -/
theorem workerLoop_not_mem (locks : LockTable) (wid : String)
    (script : Nat → ModelTurn) (maxTurns : Nat) (p : String)
    (hdeny : canWrite locks wid p = false ∨
      resolveUnder (pathSegments p) = none) :
    ∀ fuel turn st, p ∉ st.filesChanged →
      p ∉ (workerLoop locks wid script maxTurns fuel turn st).2.filesChanged := by
  intro fuel
  induction fuel with
  | zero => intro turn st h; exact h
  | succ n ih =>
      intro turn st h
      unfold workerLoop
      by_cases hstop : (script turn).stopReason = "end_turn"
      · simpa [hstop] using h
      · simp only [hstop, if_false]
        have h' := workerProcessTools_not_mem locks wid p hdeny
          (script turn).toolCalls st h
        by_cases he : (script turn).toolCalls.isEmpty
        · simpa [he] using h'
        · simp only [he, if_false, Bool.false_eq_true]
          exact ih (turn + 1) _ h'

/-- C7: a worker write-tool call denied because the path is locked by
another owner or resolves outside the project root returns an error
string to the model, the worker's run still ends in `success` (the
denial is not a worker failure), and the denied path never appears in
the returned `files_changed`. -/
theorem worker_denied_write (locks : LockTable) (wid : String)
    (script : Nat → ModelTurn) (maxTurns : Nat) (tree : FileTree)
    (snaps : SnapStore) (p c : String) (st : WorkerSt)
    (hdeny : canWrite locks wid p = false ∨
      resolveUnder (pathSegments p) = none) :
    pyStartsWith (workerExecuteSingleTool locks wid st (.writeFile p c)).1
      "Error" = true ∧
    (workerRun locks wid script maxTurns tree snaps).1.status = "success" ∧
    p ∉ (workerRun locks wid script maxTurns tree snaps).1.filesChanged := by
  refine ⟨workerWrite_denied_error locks wid st p c hdeny, ?_, ?_⟩
  · exact workerLoop_status locks wid script maxTurns maxTurns 0 _
  · unfold workerRun
    rw [workerLoop_files locks wid script maxTurns maxTurns 0 _]
    rw [mem_sortStrings]
    exact workerLoop_not_mem locks wid script maxTurns p hdeny maxTurns 0
      ⟨0, [], tree, snaps⟩ (by simp)

/-- Witness for C7: a write to `../../etc/passwd` (outside the root)
and a worker whose model keeps asking for it. -/
theorem worker_denied_write_witness :
    (canWrite [] "w1" "../../etc/passwd" = false ∨
      resolveUnder (pathSegments "../../etc/passwd") = none) ∧
    pyStartsWith (workerExecuteSingleTool [] "w1" ⟨0, [], [], []⟩
      (.writeFile "../../etc/passwd" "x")).1 "Error" = true ∧
    (workerRun [] "w1"
      (fun _ => ⟨"tool_use", none, [.writeFile "../../etc/passwd" "x"]⟩)
      2 [] []).1.status = "success" ∧
    "../../etc/passwd" ∉ (workerRun [] "w1"
      (fun _ => ⟨"tool_use", none, [.writeFile "../../etc/passwd" "x"]⟩)
      2 [] []).1.filesChanged := by
  have hden : canWrite [] "w1" "../../etc/passwd" = false ∨
      resolveUnder (pathSegments "../../etc/passwd") = none :=
    Or.inr (by decide)
  have h := worker_denied_write [] "w1"
    (fun _ => ⟨"tool_use", none, [.writeFile "../../etc/passwd" "x"]⟩)
    2 [] [] "../../etc/passwd" "x" ⟨0, [], [], []⟩ hden
  exact ⟨hden, h.1, h.2.1, h.2.2⟩

/-! ## Claim C9 — pruning retention

One finalized run of the snapshot lifecycle, as `finalize_snapshot`'s
callers drive it: `init_snapshot`, a batch of `capture_file` calls
against the run's view of the tree, then `finalize_snapshot`. -/

/-- The inputs of one snapshot run: its generated id, the tree its
captures read, the captured paths, and the finalize arguments. -/
structure RunInput where
  runId : String
  tree : FileTree
  capturePaths : List String
  filesArg : List String
  summary : String
  status : String

/-- `init` + captures + `finalize` for one run. -/
def processRun (store : SnapStore) (w : RunInput) : SnapStore :=
  finalizeSnapshot
    (w.capturePaths.foldl (fun st p => (captureFile w.tree st w.runId p).1)
      (initSnapshot store w.runId))
    w.runId w.filesArg w.summary w.status

/-- A whole sequence of runs against an initially empty snapshot area. -/
def processAll (inputs : List RunInput) : SnapStore :=
  inputs.foldl processRun []

/-- The status `finalize_snapshot` actually records. -/
def sanitizeStatus (status : String) : String :=
  if status ∈ VALID_FINAL_STATUSES then status else "error"

/-- The captured set a run accumulates from its capture batch. -/
def capturedOf (w : RunInput) : List (List String × String) :=
  w.capturePaths.foldl (fun acc p =>
    match resolveUnder (pathSegments p) with
    | none => acc
    | some canon =>
        match treeGet w.tree canon with
        | none => acc
        | some content => alistSet acc canon content) []

/-- The run directory as `finalize_snapshot` leaves it. -/
def finalRun (w : RunInput) : SnapRun :=
  ⟨w.runId, some ⟨sanitizeStatus w.status, w.filesArg, some w.summary⟩,
    capturedOf w⟩

/-- The run directory after pruning. -/
def prunedRun (w : RunInput) : SnapRun :=
  ⟨w.runId, some ⟨"pruned", w.filesArg, some w.summary⟩, []⟩

/-- The expected final state: the `MAX_FULL_SNAPSHOTS` most recent runs
full, every older run pruned. -/
def expectedStore (inputs : List RunInput) : SnapStore :=
  (inputs.reverse.take MAX_FULL_SNAPSHOTS).map finalRun
    ++ (inputs.reverse.drop MAX_FULL_SNAPSHOTS).map prunedRun

theorem charsLt_irrefl (cs : List Char) : charsLt cs cs = false := by
  induction cs with
  | nil => rfl
  | cons a as ih => simp [charsLt, ih]

theorem strLt_irrefl (s : String) : strLt s s = false :=
  charsLt_irrefl s.data

theorem charsLt_asymm (as bs : List Char) (h : charsLt as bs = true) :
    charsLt bs as = false := by
  induction as generalizing bs with
  | nil =>
      cases bs with
      | nil => simp [charsLt] at h
      | cons b bs' => simp [charsLt]
  | cons a as' ih =>
      cases bs with
      | nil => simp [charsLt] at h
      | cons b bs' =>
          simp only [charsLt] at h ⊢
          by_cases hab : a.toNat < b.toNat
          · have hba : ¬ b.toNat < a.toNat := by omega
            simp [hba, hab]
          · by_cases hba : b.toNat < a.toNat
            · simp [hab, hba] at h
            · simp only [hab, hba, if_false] at h ⊢
              exact ih bs' h

theorem strLt_asymm (a b : String) (h : strLt a b = true) :
    strLt b a = false :=
  charsLt_asymm a.data b.data h

theorem strLt_ne (a b : String) (h : strLt a b = true) : a ≠ b := by
  intro hab
  subst hab
  rw [strLt_irrefl] at h
  cases h

theorem findRun_eq_none (store : SnapStore) (rid : String)
    (h : ∀ r ∈ store, r.runId ≠ rid) : findRun store rid = none := by
  induction store with
  | nil => rfl
  | cons r rest ih =>
      unfold findRun
      rw [if_neg (h r (List.mem_cons_self r rest))]
      exact ih (fun s hs => h s (List.mem_cons_of_mem r hs))

theorem updateRun_cons (r0 : SnapRun) (store : SnapStore) (rid : String)
    (f : SnapRun → SnapRun) (h0 : r0.runId = rid)
    (h : ∀ r ∈ store, r.runId ≠ rid) :
    updateRun (r0 :: store) rid f = f r0 :: store := by
  unfold updateRun
  rw [List.map_cons, if_pos h0]
  have := updateRun_of_findRun_none store rid f (findRun_eq_none store rid h)
  unfold updateRun at this
  rw [this]

/-- A capture batch only grows the head run's captured set; sibling run
directories are untouched. -/
theorem captureFold_head (tree : FileTree) (rid : String)
    (ps : List String) :
    ∀ (cap : List (List String × String)) (m : Option Manifest)
      (store : SnapStore), (∀ r ∈ store, r.runId ≠ rid) →
      ps.foldl (fun st p => (captureFile tree st rid p).1)
          (⟨rid, m, cap⟩ :: store)
        = ⟨rid, m, ps.foldl (fun acc p =>
            match resolveUnder (pathSegments p) with
            | none => acc
            | some canon =>
                match treeGet tree canon with
                | none => acc
                | some content => alistSet acc canon content) cap⟩ :: store := by
  induction ps with
  | nil => intro cap m store h; rfl
  | cons p rest ih =>
      intro cap m store h
      rw [List.foldl_cons, List.foldl_cons]
      cases hres : resolveUnder (pathSegments p) with
      | none => simp only [captureFile, hres]; exact ih cap m store h
      | some canon =>
          cases hit : treeGet tree canon with
          | none => simp only [captureFile, hres, hit]; exact ih cap m store h
          | some content =>
              have hrun : (findRun (⟨rid, m, cap⟩ :: store) rid).isSome := by
                simp [findRun]
              simp only [captureFile, hres, hit, hrun, if_true]
              rw [updateRun_cons ⟨rid, m, cap⟩ store rid _ rfl h]
              exact ih (alistSet cap canon content) m store h

theorem sortRunsDesc_of_sorted (l : List SnapRun)
    (h : List.Pairwise (fun r s => strLt s.runId r.runId = true) l) :
    sortRunsDesc l = l := by
  induction l with
  | nil => rfl
  | cons x xs ih =>
      rw [List.pairwise_cons] at h
      unfold sortRunsDesc
      rw [ih h.2]
      cases xs with
      | nil => rfl
      | cons y ys =>
          unfold insertRunDesc
          rw [if_neg]
          rw [strLt_asymm y.runId x.runId (h.1 y (List.mem_cons_self y ys))]
          simp

/-- Pruning a descending-sorted store with manifests everywhere keeps
the first `MAX_FULL_SNAPSHOTS` directories and prunes the rest in
place. -/
theorem pruneSnapshots_sorted (store : SnapStore)
    (hsorted : List.Pairwise (fun r s => strLt s.runId r.runId = true) store)
    (hman : ∀ r ∈ store, r.manifest.isSome) :
    pruneSnapshots store
      = store.take MAX_FULL_SNAPSHOTS
        ++ (store.drop MAX_FULL_SNAPSHOTS).map pruneOne := by
  have hnodup : (store.map SnapRun.runId).Nodup := by
    rw [List.Nodup, List.pairwise_map]
    exact hsorted.imp (fun h => (strLt_ne _ _ h).symm)
  have hfilter : store.filter (fun r => r.manifest.isSome) = store :=
    List.filter_eq_self.mpr (fun r hr => hman r hr)
  have hids : (store.take MAX_FULL_SNAPSHOTS).map SnapRun.runId ++
      (store.drop MAX_FULL_SNAPSHOTS).map SnapRun.runId
      = store.map SnapRun.runId := by
    rw [← List.map_append, List.take_append_drop]
  have hdisj : ∀ a ∈ (store.take MAX_FULL_SNAPSHOTS).map SnapRun.runId,
      a ∉ (store.drop MAX_FULL_SNAPSHOTS).map SnapRun.runId := by
    have h2 := hnodup
    rw [← hids, List.nodup_append] at h2
    exact fun a ha hb => h2.2.2 ha hb
  simp only [pruneSnapshots]
  rw [hfilter, sortRunsDesc_of_sorted store hsorted]
  have hsplit : store.map (fun r =>
      if r.runId ∈ ((store.drop MAX_FULL_SNAPSHOTS).map (fun r => r.runId))
      then pruneOne r else r)
      = (store.take MAX_FULL_SNAPSHOTS).map (fun r =>
          if r.runId ∈ ((store.drop MAX_FULL_SNAPSHOTS).map (fun r => r.runId))
          then pruneOne r else r)
        ++ (store.drop MAX_FULL_SNAPSHOTS).map (fun r =>
          if r.runId ∈ ((store.drop MAX_FULL_SNAPSHOTS).map (fun r => r.runId))
          then pruneOne r else r) := by
    rw [← List.map_append, List.take_append_drop]
  rw [hsplit]
  congr 1
  · have hid : ∀ r ∈ store.take MAX_FULL_SNAPSHOTS,
        (if r.runId ∈ ((store.drop MAX_FULL_SNAPSHOTS).map (fun r => r.runId))
         then pruneOne r else r) = r := by
      intro r hr
      exact if_neg (hdisj r.runId (List.mem_map_of_mem _ hr))
    rw [List.map_congr_left hid]
    simp
  · apply List.map_congr_left
    intro r hr
    exact if_pos (List.mem_map_of_mem _ hr)

theorem sanitizeStatus_ne_pruned (status : String) :
    sanitizeStatus status ≠ "pruned" := by
  unfold sanitizeStatus
  by_cases h : status ∈ VALID_FINAL_STATUSES
  · rw [if_pos h]
    simp only [VALID_FINAL_STATUSES, List.mem_cons, List.mem_singleton,
      List.not_mem_nil, or_false] at h
    rcases h with h | h <;> (subst h; decide)
  · rw [if_neg h]
    decide

theorem pruneOne_finalRun (w : RunInput) :
    pruneOne (finalRun w) = prunedRun w := by
  simp only [pruneOne, finalRun, prunedRun]
  rw [if_neg (sanitizeStatus_ne_pruned w.status)]

theorem pruneOne_prunedRun (w : RunInput) :
    pruneOne (prunedRun w) = prunedRun w := by
  simp [pruneOne, prunedRun]

theorem expectedStore_ids (inputs : List RunInput) :
    (expectedStore inputs).map SnapRun.runId
      = inputs.reverse.map RunInput.runId := by
  unfold expectedStore
  rw [List.map_append, List.map_map, List.map_map]
  have h1 : SnapRun.runId ∘ finalRun = RunInput.runId := funext (fun w => rfl)
  have h2 : SnapRun.runId ∘ prunedRun = RunInput.runId := funext (fun w => rfl)
  rw [h1, h2, ← List.map_append, List.take_append_drop]

theorem expectedStore_manifest (inputs : List RunInput) :
    ∀ r ∈ expectedStore inputs, r.manifest.isSome := by
  intro r hr
  unfold expectedStore at hr
  rcases List.mem_append.mp hr with h | h <;>
    (obtain ⟨w, _, rfl⟩ := List.mem_map.mp h; rfl)

theorem expectedStore_src (inputs : List RunInput) :
    ∀ r ∈ expectedStore inputs, ∃ x ∈ inputs, r.runId = x.runId := by
  intro r hr
  unfold expectedStore at hr
  rcases List.mem_append.mp hr with h | h
  · obtain ⟨w, hw, rfl⟩ := List.mem_map.mp h
    exact ⟨w, List.mem_reverse.mp (List.take_subset _ _ hw), rfl⟩
  · obtain ⟨w, hw, rfl⟩ := List.mem_map.mp h
    exact ⟨w, List.mem_reverse.mp (List.drop_subset _ _ hw), rfl⟩

/-- One more finalized run against the expected state advances it: the
new run comes in full, the eleventh-newest full run is pruned, and the
already-pruned tail is left alone. -/
theorem processRun_expected (ws : List RunInput) (w : RunInput)
    (hasc : List.Pairwise (fun a b => strLt a.runId b.runId = true) ws)
    (hlt : ∀ x ∈ ws, strLt x.runId w.runId = true) :
    processRun (expectedStore ws) w = expectedStore (ws ++ [w]) := by
  have hne : ∀ r ∈ expectedStore ws, r.runId ≠ w.runId := by
    intro r hr
    obtain ⟨x, hx, hid⟩ := expectedStore_src ws r hr
    rw [hid]
    exact strLt_ne x.runId w.runId (hlt x hx)
  unfold processRun
  have hinit : initSnapshot (expectedStore ws) w.runId
      = ⟨w.runId, some ⟨"in_progress", [], none⟩, []⟩ :: expectedStore ws := rfl
  rw [hinit, captureFold_head w.tree w.runId w.capturePaths []
    (some ⟨"in_progress", [], none⟩) (expectedStore ws) hne]
  have hcap : (w.capturePaths.foldl (fun acc p =>
      match resolveUnder (pathSegments p) with
      | none => acc
      | some canon =>
          match treeGet w.tree canon with
          | none => acc
          | some content => alistSet acc canon content) [])
      = capturedOf w := rfl
  rw [hcap]
  have hfind : findRun
      (⟨w.runId, some ⟨"in_progress", [], none⟩, capturedOf w⟩
        :: expectedStore ws) w.runId
      = some ⟨w.runId, some ⟨"in_progress", [], none⟩, capturedOf w⟩ := by
    unfold findRun
    rw [if_pos rfl]
  simp only [finalizeSnapshot, hfind]
  rw [updateRun_cons ⟨w.runId, some ⟨"in_progress", [], none⟩, capturedOf w⟩
    (expectedStore ws) w.runId _ rfl hne]
  show pruneSnapshots (finalRun w :: expectedStore ws) = expectedStore (ws ++ [w])
  have hidspair : List.Pairwise (fun a b : String => strLt b a = true)
      ((expectedStore ws).map SnapRun.runId) := by
    rw [expectedStore_ids, List.map_reverse, List.pairwise_reverse]
    exact (List.pairwise_map).mpr hasc
  have hpair : List.Pairwise (fun r s : SnapRun => strLt s.runId r.runId = true)
      (expectedStore ws) := (List.pairwise_map).mp hidspair
  have hsorted : List.Pairwise (fun r s : SnapRun => strLt s.runId r.runId = true)
      (finalRun w :: expectedStore ws) := by
    rw [List.pairwise_cons]
    refine ⟨?_, hpair⟩
    intro s hs
    obtain ⟨x, hx, hid⟩ := expectedStore_src ws s hs
    rw [hid]
    exact hlt x hx
  have hman : ∀ r ∈ finalRun w :: expectedStore ws, r.manifest.isSome := by
    intro r hr
    rcases List.mem_cons.mp hr with h | h
    · subst h; rfl
    · exact expectedStore_manifest ws r h
  rw [pruneSnapshots_sorted (finalRun w :: expectedStore ws) hsorted hman]
  have h10 : MAX_FULL_SNAPSHOTS = 9 + 1 := rfl
  rw [h10, List.take_succ_cons, List.drop_succ_cons]
  have hrev : (ws ++ [w]).reverse = w :: ws.reverse := by
    rw [List.reverse_append]
    rfl
  unfold expectedStore
  rw [hrev, h10, List.take_succ_cons, List.drop_succ_cons, List.map_cons]
  rw [List.cons_append]
  congr 1
  by_cases hlen : ws.reverse.length ≤ 9
  · have hA : ws.reverse.take (9 + 1) = ws.reverse :=
      List.take_of_length_le (by omega)
    have hB : ws.reverse.drop (9 + 1) = [] :=
      List.drop_eq_nil_of_le (by omega)
    have hA9 : ws.reverse.take 9 = ws.reverse := List.take_of_length_le hlen
    have hB9 : ws.reverse.drop 9 = [] := List.drop_eq_nil_of_le hlen
    rw [hA, hB, hA9, hB9]
    have hE9t : ((ws.reverse.map finalRun) ++ ([] : List RunInput).map prunedRun).take 9
        = ws.reverse.map finalRun := by
      simp only [List.map_nil, List.append_nil]
      exact List.take_of_length_le (by rw [List.length_map]; exact hlen)
    have hE9d : ((ws.reverse.map finalRun) ++ ([] : List RunInput).map prunedRun).drop 9
        = [] := by
      simp only [List.map_nil, List.append_nil]
      exact List.drop_eq_nil_of_le (by rw [List.length_map]; exact hlen)
    rw [hE9t, hE9d]
    simp
  · have hlen' : 10 ≤ ws.reverse.length := by omega
    have hlenA : (ws.reverse.take (9 + 1)).length = 10 := by
      rw [List.length_take]
      omega
    have hE9t : ((ws.reverse.take (9 + 1)).map finalRun
          ++ (ws.reverse.drop (9 + 1)).map prunedRun).take 9
        = ((ws.reverse.take (9 + 1)).map finalRun).take 9 := by
      apply List.take_append_of_le_length
      rw [List.length_map, hlenA]
      omega
    have hE9d : ((ws.reverse.take (9 + 1)).map finalRun
          ++ (ws.reverse.drop (9 + 1)).map prunedRun).drop 9
        = ((ws.reverse.take (9 + 1)).map finalRun).drop 9
          ++ (ws.reverse.drop (9 + 1)).map prunedRun := by
      apply List.drop_append_of_le_length
      rw [List.length_map, hlenA]
      omega
    rw [hE9t, hE9d]
    rw [← List.map_take, ← List.map_drop]
    have htt : (ws.reverse.take (9 + 1)).take 9 = ws.reverse.take 9 := by
      rw [List.take_take]
      norm_num
    have htd : (ws.reverse.take (9 + 1)).drop 9
        = (ws.reverse.drop 9).take 1 := by
      rw [List.drop_take]
    have hdd : ws.reverse.drop (9 + 1)
        = (ws.reverse.drop 9).drop 1 := by
      rw [List.drop_drop]
    rw [htt, htd, hdd, List.map_append]
    congr 1
    rw [List.map_map, List.map_map]
    have hcomp : pruneOne ∘ finalRun = prunedRun :=
      funext (fun x => pruneOne_finalRun x)
    have hcomp2 : pruneOne ∘ prunedRun = prunedRun :=
      funext (fun x => pruneOne_prunedRun x)
    rw [hcomp, hcomp2, ← List.map_append]
    rw [List.take_append_drop]

theorem processAll_expected (inputs : List RunInput) :
    List.Pairwise (fun a b => strLt a.runId b.runId = true) inputs →
    processAll inputs = expectedStore inputs := by
  induction inputs using List.reverseRecOn with
  | nil => intro _; rfl
  | append_singleton ws w ih =>
      intro hsort
      obtain ⟨h1, _, h3⟩ := List.pairwise_append.mp hsort
      unfold processAll
      rw [List.foldl_append, List.foldl_cons, List.foldl_nil]
      have ihh := ih h1
      unfold processAll at ihh
      rw [ihh]
      exact processRun_expected ws w h1
        (fun x hx => h3 x hx w (List.mem_singleton_self w))

/-- C9: after a sequence of finalized runs with (strictly) increasing
run ids, the snapshot area holds exactly the `MAX_FULL_SNAPSHOTS` most
recent runs in full — manifest carrying the sanitized final status
(`success`/`error`, never `pruned`) and the captured content intact —
while every older run carries status `pruned` and no captured file. -/
theorem prune_retention (inputs : List RunInput)
    (hsort : List.Pairwise (fun a b => strLt a.runId b.runId = true) inputs) :
    processAll inputs
      = (inputs.reverse.take MAX_FULL_SNAPSHOTS).map finalRun
        ++ (inputs.reverse.drop MAX_FULL_SNAPSHOTS).map prunedRun ∧
    (∀ w : RunInput,
      (finalRun w).manifest
        = some ⟨sanitizeStatus w.status, w.filesArg, some w.summary⟩ ∧
      sanitizeStatus w.status ≠ "pruned" ∧
      (finalRun w).captured = capturedOf w) ∧
    (∀ w : RunInput,
      (prunedRun w).manifest = some ⟨"pruned", w.filesArg, some w.summary⟩ ∧
      (prunedRun w).captured = []) :=
  ⟨processAll_expected inputs hsort,
   fun w => ⟨rfl, sanitizeStatus_ne_pruned w.status, rfl⟩,
   fun _w => ⟨rfl, rfl⟩⟩

/-- Eleven runs with ascending ids, each capturing a file. -/
def sampleRuns : List RunInput :=
  (List.range 11).map (fun i =>
    ⟨"r" ++ toString (10 + i), [(["f.txt"], "c")], ["f.txt"], ["f.txt"],
      "s", "success"⟩)

/-- Witness for C9: after eleven finalized runs, the oldest is pruned
and the ten newest are full. -/
theorem prune_retention_witness :
    List.Pairwise (fun a b => strLt a.runId b.runId = true) sampleRuns ∧
    processAll sampleRuns
      = (sampleRuns.reverse.take MAX_FULL_SNAPSHOTS).map finalRun
        ++ (sampleRuns.reverse.drop MAX_FULL_SNAPSHOTS).map prunedRun := by
  have hsort : List.Pairwise (fun a b => strLt a.runId b.runId = true)
      sampleRuns := by decide
  exact ⟨hsort, (prune_retention sampleRuns hsort).1⟩
